import Mathlib

/-!
Verification development for the textifier repository.

The subtitle codec, the model-loading fallback ladder, the translator's
language validation and the orchestration layer of `textifier_core.py`
(plus `vtt_processor.py`) are embedded shallowly:

* Python strings are modelled as `List Char` (`lc` converts a literal);
* file reading in text mode applies universal-newline translation
  (`uninl`), writing on POSIX is the identity;
* the float second counts handed to the time formatters are modelled
  exactly, as whole non-negative millisecond counts (`Nat`), which is
  the precision the formatters themselves print;
* external collaborators (the filesystem, the Whisper constructor, the
  tokenizer's language table, the translation model) are oracle
  parameters, mirroring the spec's "request/response" view of them.
-/

/-- Convert a Lean string literal to the `List Char` model of Python strings. -/
def lc (s : String) : List Char := s.toList

/-- Python `str.strip()` whitespace set. -/
def pyWs (c : Char) : Bool :=
  c = ' ' || c = '\t' || c = '\n' || c = '\r' || c = '\x0b' || c = '\x0c'

/-- Python `str.strip()`. -/
def pyStrip (s : List Char) : List Char :=
  ((s.dropWhile pyWs).reverse.dropWhile pyWs).reverse

/-- Cons a character onto the first piece of a split result. -/
def consTo (c : Char) : List (List Char) → List (List Char)
  | [] => [[c]]
  | h :: t => (c :: h) :: t

/-- Python `s.split('\n')`. -/
def splitNl : List Char → List (List Char)
  | [] => [[]]
  | '\n' :: rest => [] :: splitNl rest
  | c :: rest => consTo c (splitNl rest)

/-- Python `s.split('\n\n')` (left-to-right, non-overlapping). -/
def split2nl : List Char → List (List Char)
  | [] => [[]]
  | '\n' :: '\n' :: rest => [] :: split2nl rest
  | c :: rest => consTo c (split2nl rest)

/-- Python `s.split(' --> ')` (left-to-right, non-overlapping). -/
def splitArrow : List Char → List (List Char)
  | [] => [[]]
  | ' ' :: '-' :: '-' :: '>' :: ' ' :: rest => [] :: splitArrow rest
  | c :: rest => consTo c (splitArrow rest)

/-- Python `'\n'.join(ls)`. -/
def joinNl : List (List Char) → List Char
  | [] => []
  | [l] => l
  | l :: ls => l ++ '\n' :: joinNl ls

/-- Rejoin the pieces of a `'\n\n'` split (used only in proofs, as the
inverse of `split2nl`). -/
def join2nl : List (List Char) → List Char
  | [] => []
  | [l] => l
  | l :: ls => l ++ '\n' :: '\n' :: join2nl ls

/-- Does `pat` occur at the start of `s`? -/
def hasPre : List Char → List Char → Bool
  | [], _ => true
  | _ :: _, [] => false
  | p :: ps, c :: cs => p = c && hasPre ps cs

/-- Python `pat in s` (substring test). -/
def containsSub (pat : List Char) : List Char → Bool
  | [] => hasPre pat []
  | c :: cs => hasPre pat (c :: cs) || containsSub pat cs

/-- Universal-newline translation performed by reading a file in Python
text mode: `\r\n` and lone `\r` both become `\n`. -/
def uninl : List Char → List Char
  | [] => []
  | '\r' :: '\n' :: rest => '\n' :: uninl rest
  | '\r' :: rest => '\n' :: uninl rest
  | c :: rest => c :: uninl rest

/-- The decimal digit character for `d < 10`. -/
def digitChar (d : Nat) : Char := Char.ofNat (48 + d)

/-- Fueled accumulator loop producing the decimal digits of `n`
(most significant first, prepended to `acc`). -/
def natCharsAux : Nat → Nat → List Char → List Char
  | 0, _, acc => acc
  | fuel + 1, n, acc =>
    if n = 0 then acc else natCharsAux fuel (n / 10) (digitChar (n % 10) :: acc)

/-- Python `str(n)` for a natural number. -/
def natChars (n : Nat) : List Char :=
  if n = 0 then ['0'] else natCharsAux (n + 1) n []

/-- Zero-pad `s` on the left to width `w` (Python `%0wd` padding). -/
def padZero (w : Nat) (s : List Char) : List Char :=
  List.replicate (w - s.length) '0' ++ s

/-- Python `f"{n:02d}"`. -/
def pad2 (n : Nat) : List Char := padZero 2 (natChars n)

/-- Python `f"{n:03d}"`. -/
def pad3 (n : Nat) : List Char := padZero 3 (natChars n)

/-- A parsed cue: the dict `{'start': ..., 'end': ..., 'text': ...}` of
`textifier_core.py` (`stop` models the `'end'` key, a Lean keyword). -/
structure Cue where
  start : List Char
  stop : List Char
  text : List Char
deriving DecidableEq, Repr

namespace FormatHandler

/-- `FormatHandler.format_vtt_time`, on an exact duration of `ms`
milliseconds: `h = s // 3600`, `m = (s % 3600) // 60`, and
`f"-{s % 60:06.3f}"` which zero-pads the seconds field to two integer
digits and prints exactly three decimals. -/
def format_vtt_time (ms : Nat) : List Char :=
  pad2 (ms / 3600000) ++ lc ":" ++ pad2 (ms % 3600000 / 60000) ++ lc ":" ++
    pad2 (ms % 60000 / 1000) ++ lc "." ++ pad3 (ms % 1000)

/-- `FormatHandler.format_srt_time`: as above but
`f"-{int(s):02d},{int((s % 1) * 1000):03d}"` (comma separator). -/
def format_srt_time (ms : Nat) : List Char :=
  pad2 (ms / 3600000) ++ lc ":" ++ pad2 (ms % 3600000 / 60000) ++ lc ":" ++
    pad2 (ms % 60000 / 1000) ++ lc "," ++ pad3 (ms % 1000)

/-- One block written by `save_vtt_from_data` / `save_srt_from_data`:
`f"-{i}\n-{start} --> -{end}\n-{text}\n\n"` (both writers emit the same
shape; VTT additionally prepends a header). -/
def cueBlock (i : Nat) (c : Cue) : List Char :=
  natChars i ++ lc "\n" ++ c.start ++ lc " --> " ++ c.stop ++ lc "\n" ++
    c.text ++ lc "\n\n"

/-- The enumerated loop of the two block writers, starting at index `i`. -/
def cueBlocksFrom (i : Nat) : List Cue → List Char
  | [] => []
  | c :: cs => cueBlock i c ++ cueBlocksFrom (i + 1) cs

/-- `FormatHandler.save_vtt_from_data`: the content written to the file. -/
def save_vtt_from_data (data : List Cue) : List Char :=
  lc "WEBVTT\n\n" ++ cueBlocksFrom 1 data

/-- `FormatHandler.save_srt_from_data`: the content written to the file
(`enumerate(data, 1)`, no header). -/
def save_srt_from_data (data : List Cue) : List Char :=
  cueBlocksFrom 1 data

/-- The per-block step of `parse_vtt`'s loop: the cues contributed by one
`'\n\n'`-separated block. -/
def vttBlockCues (block : List Char) : List Cue :=
  let lns := splitNl (pyStrip block)
  match lns with
  | [] => []
  | l0 :: _ =>
    if l0 = lc "WEBVTT" then []
    else
      match lns.findIdx? (fun l => containsSub (lc " --> ") l) with
      | none => []
      | some i =>
        match splitArrow (lns.getD i []) with
        | [t0, t1] => [⟨pyStrip t0, pyStrip t1, joinNl (lns.drop (i + 1))⟩]
        | _ => []

/-- `FormatHandler.parse_vtt`, applied to the raw bytes of the file (the
text-mode read first performs universal-newline translation). -/
def parse_vtt (content : List Char) : List Cue :=
  ((split2nl (uninl content)).map vttBlockCues).flatten

/-- The per-block step of `parse_srt`'s loop. -/
def srtBlockCues (block : List Char) : List Cue :=
  let lns := splitNl (pyStrip block)
  if 3 ≤ lns.length then
    let l0 := lns.getD 0 []
    let l1 := lns.getD 1 []
    match (if containsSub (lc "-->") l1 then some l1
           else if containsSub (lc "-->") l0 then some l0 else none) with
    | none => []
    | some tl =>
      match splitArrow tl with
      | [t0, t1] =>
        let textIdx := if containsSub (lc "-->") l1 then 2 else 1
        [⟨pyStrip t0, pyStrip t1, joinNl (lns.drop textIdx)⟩]
      | _ => []
  else []

/-- `FormatHandler.parse_srt`: `content.strip().split('\n\n')`, then the
per-block extraction. -/
def parse_srt (content : List Char) : List Cue :=
  ((split2nl (pyStrip (uninl content))).map srtBlockCues).flatten

/-- Does the `csv` excel dialect (QUOTE_MINIMAL) need to quote this field? -/
def csvNeedsQuote (f : List Char) : Bool :=
  f.any (fun c => c = ',' || c = '"' || c = '\n' || c = '\r')

/-- Double every quote character (csv writer escaping inside quotes). -/
def csvEscape : List Char → List Char
  | [] => []
  | '"' :: rest => '"' :: '"' :: csvEscape rest
  | c :: rest => c :: csvEscape rest

/-- One field as written by `csv.writer` (excel dialect). -/
def csvField (f : List Char) : List Char :=
  if csvNeedsQuote f then '"' :: csvEscape f ++ ['"'] else f

/-- Join rendered fields with the `,` delimiter. -/
def joinComma : List (List Char) → List Char
  | [] => []
  | [f] => f
  | f :: fs => f ++ ',' :: joinComma fs

/-- One row written by `csv.writer.writerow` (terminator `\r\n`). -/
def csvRow (fs : List (List Char)) : List Char :=
  joinComma (fs.map csvField) ++ lc "\r\n"

/-- `FormatHandler.save_csv_from_data`: header row then one row per cue
(the file is opened with `newline=''`, so the content is written as is). -/
def save_csv_from_data (data : List Cue) : List Char :=
  csvRow [lc "Start", lc "End", lc "Text"] ++
    (data.map (fun c => csvRow [c.start, c.stop, c.text])).flatten

/-- Character-level model of the `csv` reader on universal-newline
translated content (so record terminators are bare `\n`): a scan with a
quote-mode flag, the current field and the current row.  A blank line
yields the empty record `[]`, as `csv.reader` does. -/
def csvScan : List Char → Bool → List Char → List (List Char) →
    List (List (List Char))
  | [], true, f, row => [row ++ [f]]
  | [], false, f, row => if f = [] && row.isEmpty then [] else [row ++ [f]]
  | '"' :: '"' :: rest, true, f, row => csvScan rest true (f ++ ['"']) row
  | '"' :: rest, true, f, row => csvScan rest false f row
  | c :: rest, true, f, row => csvScan rest true (f ++ [c]) row
  | '"' :: rest, false, f, row =>
    if f = [] then csvScan rest true f row
    else csvScan rest false (f ++ ['"']) row
  | ',' :: rest, false, f, row => csvScan rest false [] (row ++ [f])
  | '\n' :: rest, false, f, row =>
    if f = [] && row.isEmpty then [] :: csvScan rest false [] []
    else (row ++ [f]) :: csvScan rest false [] []
  | c :: rest, false, f, row => csvScan rest false (f ++ [c]) row

/-- `DictReader` value lookup for one key: `none` when the key is not a
fieldname.  When the row is shorter than the header Python binds the
Python value `None`; a `None`-valued cue is outside the `Cue` data model
(it never arises from `save_csv_from_data` output), so such rows
contribute nothing here. -/
def dictVal (header row : List (List Char)) (key : List Char) :
    Option (List Char) :=
  match header.findIdx? (fun h => h = key) with
  | none => none
  | some i => if h : i < row.length then some (row.get ⟨i, h⟩) else none

/-- Cues contributed by one `DictReader` row (`DictReader` skips the
empty record produced by a blank line). -/
def csvRowCues (header row : List (List Char)) : List Cue :=
  if row = [] then []
  else
    match dictVal header row (lc "Start"), dictVal header row (lc "End"),
        dictVal header row (lc "Text") with
    | some s, some e, some t => [⟨s, e, t⟩]
    | _, _, _ => []

/-- `FormatHandler.parse_csv`: text-mode read (universal newlines), csv
records, first record as header, then the row loop. -/
def parse_csv (content : List Char) : List Cue :=
  match csvScan (uninl content) false [] [] with
  | [] => []
  | header :: rows => (rows.map (csvRowCues header)).flatten

/-- Python `str.splitlines()` restricted to `\n` line breaks (the only
ones present after universal-newline translation). -/
def pySplitlines (s : List Char) : List (List Char) :=
  if s = [] then []
  else if s.getLast? = some '\n' then (splitNl s).dropLast else splitNl s

/-- `FormatHandler.parse_txt`: stripped non-empty lines of the file. -/
def parse_txt (content : List Char) : List (List Char) :=
  ((pySplitlines (uninl content)).map pyStrip).filter (fun l => l ≠ [])

/-- `FormatHandler.save_txt_from_data`. -/
def save_txt_from_data (lines : List (List Char)) : List Char :=
  (lines.map (fun l => l ++ lc "\n")).flatten

end FormatHandler

namespace VTTProcessor

/-- Match `\d-{2}:\d-{2}:\d-{2}\.\d-{3}` at the head of `s`, returning the
matched 12 characters and the remainder (ASCII digits; the scope of the
development does not include non-ASCII `\d` matches). -/
def matchTs : List Char → Option (List Char × List Char)
  | a :: b :: c :: d :: e :: f :: g :: h :: i :: j :: k :: l :: rest =>
    if a.isDigit && b.isDigit && c = ':' && d.isDigit && e.isDigit && f = ':' &&
        g.isDigit && h.isDigit && i = '.' && j.isDigit && k.isDigit && l.isDigit
    then some ([a, b, c, d, e, f, g, h, i, j, k, l], rest) else none
  | _ => none

/-- `\s` of the regex module. -/
def reWs (c : Char) : Bool :=
  c = ' ' || c = '\t' || c = '\n' || c = '\r' || c = '\x0b' || c = '\x0c'

/-- Try the full pattern `(ts)\s-->\s(ts)` at the head of `s`, returning
the two capture groups. -/
def matchArrowAt (s : List Char) : Option (List Char × List Char) :=
  match matchTs s with
  | none => none
  | some (t1, r1) =>
    match r1 with
    | w1 :: '-' :: '-' :: '>' :: w2 :: r2 =>
      if reWs w1 && reWs w2 then
        match matchTs r2 with
        | some (t2, _) => some (t1, t2)
        | none => none
      else none
    | _ => none

/-- `time_pattern.search(line)`: leftmost match of the timestamp pair
pattern (the pattern has a fixed shape, so no backtracking arises). -/
def timeSearch : List Char → Option (List Char × List Char)
  | [] => none
  | c :: rest =>
    match matchArrowAt (c :: rest) with
    | some p => some p
    | none => timeSearch rest

/-- Structural scan equivalent to `re.sub(r'<[^>]+>', '', s)`: from each
`<`, buffer up to the first following `>`; a buffered run of length at
least two (the `<` plus one or more non-`>` characters) is dropped, the
degenerate `<>` and an unclosed tail are emitted literally. -/
def stripTagsGo : List Char → Option (List Char) → List Char
  | [], none => []
  | [], some buf => buf.reverse
  | '<' :: rest, none => stripTagsGo rest (some ['<'])
  | '>' :: rest, some buf =>
    if 2 ≤ buf.length then stripTagsGo rest none
    else buf.reverse ++ '>' :: stripTagsGo rest none
  | c :: rest, some buf => stripTagsGo rest (some (c :: buf))
  | c :: rest, none => c :: stripTagsGo rest none

/-- `re.sub(r'<[^>]+>', '', s)` of `VTTProcessor._add_block`. -/
def stripTags (s : List Char) : List Char := stripTagsGo s none

/-- The mutable `current_block` dict plus the `blocks` accumulator of
`VTTProcessor.parse`. -/
structure VPState where
  cur_start : Option (List Char)
  cur_end : Option (List Char)
  cur_text : List (List Char)
  blocks : List Cue

/-- `VTTProcessor._add_block`: join the buffered text lines with spaces,
strip HTML-like tags, append the cue. -/
def vpEmit (st : VPState) : List Cue :=
  st.blocks ++
    [⟨st.cur_start.getD [], st.cur_end.getD [],
      stripTags (joinSpace st.cur_text)⟩]
where
  /-- `" ".join(lines)`. -/
  joinSpace : List (List Char) → List Char
    | [] => []
    | [l] => l
    | l :: ls => l ++ ' ' :: joinSpace ls

/-- One iteration of the line loop of `VTTProcessor.parse`. -/
def vpStep (st : VPState) (rawLine : List Char) : VPState :=
  let line := pyStrip rawLine
  if line = [] then st
  else if line = lc "WEBVTT" then st
  else if line.all Char.isDigit then st
  else
    match timeSearch line with
    | some (t1, t2) =>
      if st.cur_start.isSome && st.cur_text ≠ [] then
        { cur_start := some t1, cur_end := some t2, cur_text := [],
          blocks := vpEmit st }
      else
        { st with cur_start := some t1, cur_end := some t2 }
    | none => { st with cur_text := st.cur_text ++ [line] }

/-- `VTTProcessor.parse`: the resulting `blocks` list (text-mode read,
`splitlines`, the line loop, then the final flush). -/
def parse (content : List Char) : List Cue :=
  let st :=
    (FormatHandler.pySplitlines (uninl content)).foldl vpStep ⟨none, none, [], []⟩
  if st.cur_start.isSome && st.cur_text ≠ [] then vpEmit st else st.blocks

end VTTProcessor

namespace Transcriber

/-- The mutable state of a `Transcriber` that `load_model` reads and
writes: the loaded handle, its model name, and the `_last_device` /
`_last_compute_type` attributes (absent attributes are `none`).
`H` is the type of Whisper model handles. -/
structure TState (H : Type) where
  whisper_model : Option H
  whisper_model_name : Option String
  last_device : Option String
  last_compute_type : Option String
deriving DecidableEq, Repr

/-- `cuda_types` of `Transcriber.load_model`. -/
def cudaTypes : List String := ["float16", "int8_float16", "int8", "float32"]

/-- `cpu_types` of `Transcriber.load_model`. -/
def cpuTypes : List String := ["int8", "float32"]

/-- The CUDA list after the `remove`/`insert(0, ...)` reordering for an
explicitly requested compute type. -/
def orderedCudaTypes (compute_type : String) : List String :=
  if compute_type ≠ "default" && cudaTypes.contains compute_type
  then compute_type :: cudaTypes.erase compute_type
  else cudaTypes

/-- One `for ctype in types: try ... break / except ... continue` loop:
first successful constructor result (handle and compute type) plus the
list of `(device, ctype)` attempts made (each attempt is observable as a
status message). -/
def tryTypes {H : Type} (ctor : String → String → Option H) (dev : String) :
    List String → Option (H × String) × List (String × String)
  | [] => (none, [])
  | t :: ts =>
    match ctor dev t with
    | some h => (some (h, t), [(dev, t)])
    | none =>
      let r := tryTypes ctor dev ts
      (r.1, (dev, t) :: r.2)

/-- The guard of the early return at the top of `load_model`. -/
def earlyReturn {H : Type} (st : TState H) (model_name device : String) : Prop :=
  st.whisper_model.isSome ∧ st.whisper_model_name = some model_name ∧
    device ≠ "auto" ∧ st.last_device = some device

instance {H : Type} (st : TState H) (n d : String) :
    Decidable (earlyReturn st n d) := by
  unfold earlyReturn; infer_instance

/-- The device after `device == "auto"` resolution
(`torch.cuda.is_available()` is the oracle `cudaAvail`). -/
def effDev (device : String) (cudaAvail : Bool) : String :=
  if device = "auto" then (if cudaAvail then "cuda" else "cpu") else device

/-- `Transcriber.load_model`, with the `WhisperModel` constructor as the
oracle `ctor` (returning `none` when the constructor raises).  The model
download step is external I/O and is modelled as already satisfied.
Returns the outcome (new state, or the message of the `RuntimeError`
raised) together with the trace of `(device, compute_type)` construction
attempts. -/
def load_model {H : Type} (st : TState H) (model_name device compute_type : String)
    (cudaAvail : Bool) (ctor : String → String → Option H) :
    Except String (TState H) × List (String × String) :=
  if earlyReturn st model_name device then (.ok st, [])
  else
    let dev := effDev device cudaAvail
    let p1 := if dev = "cuda"
      then tryTypes ctor "cuda" (orderedCudaTypes compute_type)
      else (none, [])
    let st1 := match p1.1 with
      | some (h, t) =>
        { st with whisper_model := some h, last_device := some "cuda",
                  last_compute_type := some t }
      | none => st
    let p2 := if st1.whisper_model.isSome then (none, [])
      else tryTypes ctor "cpu" cpuTypes
    let st2 := match p2.1 with
      | some (h, t) =>
        { st1 with whisper_model := some h, last_device := some "cpu",
                   last_compute_type := some t }
      | none => st1
    if st2.whisper_model.isSome then
      (.ok { st2 with whisper_model_name := some model_name }, p1.2 ++ p2.2)
    else
      (.error ("Could not load Whisper model '" ++ model_name ++
        "' on any device/compute type."), p1.2 ++ p2.2)

end Transcriber

/-- Python exceptions surfaced by the embedded operations. -/
inductive PyErr where
  | valueError (msg : String)
  | keyError (msg : String)
  | fileNotFound (msg : List Char)
  | runtimeError (msg : String)
deriving DecidableEq, Repr

namespace Translator

/-- The `lang_codes` dict of `Translator.translate`, as an ordered
association list (all keys are distinct). -/
def lang_codes : List (String × String) :=
  [("en", "en_XX"), ("fr", "fr_XX"), ("es", "es_XX"), ("de", "de_DE"),
   ("it", "it_IT"), ("pt", "pt_XX"), ("nl", "nl_XX"), ("ru", "ru_RU"),
   ("pl", "pl_PL"), ("tr", "tr_TR"), ("hi", "hi_IN"), ("gu", "gu_IN"),
   ("mr", "mr_IN"), ("ta", "ta_IN"), ("te", "te_IN"), ("bn", "bn_IN"),
   ("ml", "ml_IN"), ("ja", "ja_XX"), ("ko", "ko_KR"), ("zh", "zh_CN"),
   ("ar", "ar_AR"), ("he", "he_IL"), ("fa", "fa_IR"), ("ur", "ur_PK"),
   ("vi", "vi_VN"), ("th", "th_TH"), ("id", "id_ID"), ("ms", "ms_MY"),
   ("tl", "tl_XX"), ("sw", "sw_KE"), ("af", "af_ZA"), ("xh", "xh_ZA"),
   ("cs", "cs_CZ"), ("sk", "sk_SK"), ("hr", "hr_HR"), ("sr", "sr_RS"),
   ("bg", "bg_BG"), ("mk", "mk_MK"), ("uk", "uk_UA"), ("ro", "ro_RO"),
   ("hu", "hu_HU"), ("fi", "fi_FI"), ("sv", "sv_SE"), ("no", "no_XX"),
   ("da", "da_DK"), ("et", "et_EE"), ("lv", "lv_LV"), ("lt", "lt_LT"),
   ("ka", "ka_GE"), ("az", "az_AZ"), ("kk", "kk_KZ"), ("mn", "mn_MN"),
   ("ne", "ne_NP"), ("si", "si_LK"), ("my", "my_MM"), ("km", "km_KH"),
   ("ps", "ps_AF")]

/-- `lang_codes.get(k, k)`. -/
def lookupLang (k : String) : String :=
  ((lang_codes.find? (fun p => p.1 = k)).map (fun p => p.2)).getD k

/-- Observable acts of the translation pipeline after the language
check. -/
inductive TrEvent where
  | generate (src_code tgt_code text : String)
deriving DecidableEq, Repr

/-- `Translator.translate` with the model already loaded (`load_model`
is external I/O): `supported` models the keys of
`tokenizer.lang_code_to_id`, `gen` the tokenizer/`model.generate`/decode
pipeline.  After the validation check, the code indexes
`lang_codes[target_lang]` directly, which raises `KeyError` for a
supported code passed in raw mBART form; argument evaluation precedes
the `generate` call. -/
def translate (supported : List String) (gen : String → String → String → String)
    (text source_lang target_lang : String) :
    Except PyErr String × List TrEvent :=
  let src_code := lookupLang source_lang
  let tgt_code := lookupLang target_lang
  if tgt_code ∉ supported then
    (.error (.valueError ("Unsupported target language: " ++ target_lang)), [])
  else
    match lang_codes.find? (fun p => p.1 = target_lang) with
    | none => (.error (.keyError target_lang), [])
    | some p =>
      (.ok (gen src_code p.2 text), [TrEvent.generate src_code p.2 text])

end Translator

/-! Path arithmetic of `pathlib` as used by the orchestration layer
(POSIX separators, inputs without redundant slashes). -/

/-- Is `c` one of the characters stripped by `str.strip('"\'')`? -/
def quoteChar (c : Char) : Bool := c = '"' || c = '\''

/-- `str(path_str).strip('"\'')` of `TextifierCore._normalize_path`. -/
def stripQuotes (s : List Char) : List Char :=
  ((s.dropWhile quoteChar).reverse.dropWhile quoteChar).reverse

/-- Split a path into the directory part (with its trailing slash, empty
when there is none) and the final component. -/
def splitPath (p : List Char) : List Char × List Char :=
  ((p.reverse.dropWhile (fun c => c ≠ '/')).reverse,
   (p.reverse.takeWhile (fun c => c ≠ '/')).reverse)

/-- `PurePath.stem` of a final component: strip the last dot suffix when
the last `.` sits at a positive index. -/
def pathStem (base : List Char) : List Char :=
  if (base.drop 1).contains '.' then
    ((base.reverse.dropWhile (fun c => c ≠ '.')).drop 1).reverse
  else base

/-- `PurePath.suffix` of a final component. -/
def pathSuffix (base : List Char) : List Char :=
  if (base.drop 1).contains '.' then
    '.' :: (base.reverse.takeWhile (fun c => c ≠ '.')).reverse
  else []

/-- `Path.with_suffix`: replace the (possibly empty) suffix of the final
component. -/
def withSuffix (p : List Char) (newSuf : List Char) : List Char :=
  (splitPath p).1 ++ pathStem (splitPath p).2 ++ newSuf

/-- `(Path(output_dir) if output_dir else input_path.parent) / name`. -/
def outBase (output_dir : Option (List Char)) (p name : List Char) : List Char :=
  (match output_dir with
   | some d => d ++ lc "/"
   | none => (splitPath p).1) ++ name

namespace TextifierCore

/-- A Whisper result segment (`segment.start` / `segment.end` as exact
millisecond counts, `segment.text`). -/
structure Seg where
  start : Nat
  stop : Nat
  text : List Char
deriving DecidableEq, Repr

/-- The enumerated block loop shared by `save_vtt` and `save_srt`. -/
def segBlocksFrom (fmt : Nat → List Char) (i : Nat) : List Seg → List Char
  | [] => []
  | s :: ss =>
    natChars i ++ lc "\n" ++ fmt s.start ++ lc " --> " ++ fmt s.stop ++
      lc "\n" ++ pyStrip s.text ++ lc "\n\n" ++ segBlocksFrom fmt (i + 1) ss

/-- `FormatHandler.save_vtt`: header plus formatted, stripped segments. -/
def save_vtt (segments : List Seg) : List Char :=
  lc "WEBVTT\n\n" ++ segBlocksFrom FormatHandler.format_vtt_time 1 segments

/-- `FormatHandler.save_srt`. -/
def save_srt (segments : List Seg) : List Char :=
  segBlocksFrom FormatHandler.format_srt_time 1 segments

/-- `FormatHandler.save_txt`. -/
def save_txt (segments : List Seg) : List Char :=
  (segments.map (fun s => pyStrip s.text ++ lc "\n")).flatten

/-- `FormatHandler.save_csv` (VTT-style timestamps, stripped text). -/
def save_csv (segments : List Seg) : List Char :=
  FormatHandler.csvRow [lc "Start", lc "End", lc "Text"] ++
    (segments.map (fun s => FormatHandler.csvRow
      [FormatHandler.format_vtt_time s.start,
       FormatHandler.format_vtt_time s.stop, pyStrip s.text])).flatten

/-- Observable side effects of the orchestration layer. -/
inductive FSEvent where
  | loadModel
  | transcribeCall
  | write (path : List Char) (content : List Char)
deriving DecidableEq, Repr

/-- `TextifierCore.transcribe_media`.  Oracles: `fsExists` (the
filesystem), `modelLoaded` (`self.transcriber.whisper_model` at entry),
`loadOk` (whether the fallback ladder of `load_whisper_model` succeeds),
`transcribeResult` (the segments, `none` when a stop request makes
`transcribe` return `None`).  The requested `output_format` is popped
from the kwargs and ignored; the `initial_prompt` defaulting only feeds
the transcriber oracle. -/
def transcribe_media (fsExists : List Char → Bool) (modelLoaded loadOk : Bool)
    (transcribeResult : Option (List Seg)) (input_path : List Char)
    (output_dir : Option (List Char)) (output_format : Option String) :
    Except PyErr (Option (List (List Char))) × List FSEvent :=
  let _ := output_format
  let p := stripQuotes input_path
  if fsExists p = false then (.error (.fileNotFound p), [])
  else
    let loadEvs := if modelLoaded then [] else [FSEvent.loadModel]
    if modelLoaded = false ∧ loadOk = false then
      (.error (.runtimeError "load failed"), loadEvs)
    else
      let evs := loadEvs ++ [FSEvent.transcribeCall]
      match transcribeResult with
      | none => (.ok none, evs)
      | some segments =>
        let base := outBase output_dir p (pathStem (splitPath p).2)
        let vttP := withSuffix base (lc ".vtt")
        let srtP := withSuffix base (lc ".srt")
        let txtP := withSuffix base (lc ".txt")
        let csvP := withSuffix base (lc ".csv")
        (.ok (some [vttP, srtP, txtP, csvP]),
         evs ++ [FSEvent.write vttP (save_vtt segments),
                 FSEvent.write srtP (save_srt segments),
                 FSEvent.write txtP (save_txt segments),
                 FSEvent.write csvP (save_csv segments)])

/-- Replace only the `'text'` field, as the segment loop of
`translate_file` does. -/
def trSeg (tr : List Char → List Char) (c : Cue) : Cue :=
  { c with text := tr c.text }

/-- `TextifierCore.translate_file`.  Oracles: `fs` maps a path to the
raw bytes of an existing file (`none` models a missing path, checked by
`_normalize_path`), `tr` is `Translator.translate` specialised to the
fixed language pair of the call (the per-segment translation). -/
def translate_file (fs : List Char → Option (List Char))
    (tr : List Char → List Char) (input_path : List Char)
    (target_lang : List Char) (output_dir : Option (List Char)) :
    Except PyErr (List Char) × List FSEvent :=
  let p := stripQuotes input_path
  match fs p with
  | none => (.error (.fileNotFound p), [])
  | some content =>
    let ext := (pathSuffix (splitPath p).2).map Char.toLower
    let outP := outBase output_dir p
      (pathStem (splitPath p).2 ++ lc "_" ++ target_lang ++ ext)
    if ext = lc ".vtt" then
      let data := (FormatHandler.parse_vtt content).map (trSeg tr)
      (.ok outP, [FSEvent.write outP (FormatHandler.save_vtt_from_data data)])
    else if ext = lc ".srt" then
      let data := (FormatHandler.parse_srt content).map (trSeg tr)
      (.ok outP, [FSEvent.write outP (FormatHandler.save_srt_from_data data)])
    else if ext = lc ".csv" then
      let data := (FormatHandler.parse_csv content).map (trSeg tr)
      (.ok outP, [FSEvent.write outP (FormatHandler.save_csv_from_data data)])
    else if ext = lc ".txt" then
      let data := (FormatHandler.parse_txt content).map tr
      (.ok outP, [FSEvent.write outP (FormatHandler.save_txt_from_data data)])
    else
      (.error (.valueError "Unsupported file format"), [])

end TextifierCore

/-- The exhaustive combination space of one `load_model` call: the
precision list of the effective preferred device, then the CPU fallback
list (the code's per-device loops traverse exactly these, in order). -/
def Transcriber.fullCombos (device compute_type : String) (cudaAvail : Bool) :
    List (String × String) :=
  (if Transcriber.effDev device cudaAvail = "cuda"
   then (Transcriber.orderedCudaTypes compute_type).map (fun t => ("cuda", t))
   else []) ++ Transcriber.cpuTypes.map (fun t => ("cpu", t))

/-- Well-formedness of a cue text for the round-trip claim: no blank
(empty or whitespace-only) line, no carriage return (universal-newline
translation on re-reading rewrites those), and no trailing whitespace
(the parsers strip the block end).  Texts outside this class differ from
their round trip only by whitespace normalization. -/
def wfText (t : List Char) : Prop :=
  (∀ l ∈ splitNl t, pyStrip l ≠ []) ∧ '\r' ∉ t ∧
    t.getLast?.all (fun c => ! pyWs c) = true

instance wfTextDecidable (t : List Char) : Decidable (wfText t) :=
  inferInstanceAs (Decidable ((∀ l ∈ splitNl t, pyStrip l ≠ []) ∧ '\r' ∉ t ∧
    t.getLast?.all (fun c => ! pyWs c) = true))

/-- The string is a formatted VTT timestamp. -/
def isVttTs (s : List Char) : Prop :=
  ∃ ms, s = FormatHandler.format_vtt_time ms

/-- The string is a formatted SRT timestamp. -/
def isSrtTs (s : List Char) : Prop :=
  ∃ ms, s = FormatHandler.format_srt_time ms

/-- The timestamp line of a written cue block: `f"-{start} --> -{end}"`. -/
def tsLine (s e : List Char) : List Char :=
  s ++ ' ' :: '-' :: '-' :: '>' :: ' ' :: e

/-- A written cue block without its terminating blank line. -/
def cueCore (i : Nat) (c : Cue) : List Char :=
  natChars i ++ '\n' :: (tsLine c.start c.stop ++ '\n' :: c.text)

/-- The cores of the blocks written for `data`, starting at index `i`. -/
def cueCores (i : Nat) : List Cue → List (List Char)
  | [] => []
  | c :: cs => cueCore i c :: cueCores (i + 1) cs

/-- Well-formedness of one cue for the block-structured round trips: both
timestamps are non-empty strings over the timestamp alphabet, and the text
is well formed in the sense of `wfText`. -/
def wfCue (c : Cue) : Prop :=
  (c.start ≠ [] ∧ ∀ x ∈ c.start, x ∈ lc "0123456789:.,") ∧
    (c.stop ≠ [] ∧ ∀ x ∈ c.stop, x ∈ lc "0123456789:.,") ∧ wfText c.text

/-! ### Bridge equations for the pattern-matched string primitives -/

theorem splitNl_cons (c : Char) (rest : List Char) (h : c ≠ '\n') :
    splitNl (c :: rest) = consTo c (splitNl rest) := by
  rw [splitNl.eq_def]
  split
  · simp_all
  · simp_all
  · rename_i heq
    injection heq with h1 h2
    subst h1; subst h2
    rfl

theorem split2nl_cons (c : Char) (rest : List Char)
    (h : c ≠ '\n' ∨ rest.head? ≠ some '\n') :
    split2nl (c :: rest) = consTo c (split2nl rest) := by
  rw [split2nl.eq_def]
  split
  · simp_all
  · rename_i heq
    injection heq with h1 h2
    subst h1
    cases rest with
    | nil => simp_all
    | cons d t =>
      injection h2 with h3 h4
      subst h3
      rcases h with h | h
      · exact absurd rfl h
      · simp at h
  · rename_i heq
    injection heq with h1 h2
    subst h1; subst h2
    rfl

theorem splitArrow_cons (c : Char) (rest : List Char) (h : c ≠ ' ') :
    splitArrow (c :: rest) = consTo c (splitArrow rest) := by
  rw [splitArrow.eq_def]
  split
  · simp_all
  · rename_i heq
    injection heq with h1 h2
    exact absurd h1 h
  · rename_i heq
    injection heq with h1 h2
    subst h1; subst h2
    rfl

theorem uninl_cons (c : Char) (rest : List Char) (h : c ≠ '\r') :
    uninl (c :: rest) = c :: uninl rest := by
  rw [uninl.eq_def]
  split
  · simp_all
  · rename_i heq
    injection heq with h1 h2
    exact absurd h1 h
  · rename_i heq
    injection heq with h1 h2
    exact absurd h1 h
  · rename_i heq
    injection heq with h1 h2
    subst h1; subst h2
    rfl

theorem csvEscape_cons (c : Char) (rest : List Char) (h : c ≠ '"') :
    FormatHandler.csvEscape (c :: rest) = c :: FormatHandler.csvEscape rest := by
  rw [FormatHandler.csvEscape.eq_def]
  split
  · simp_all
  · rename_i heq
    injection heq with h1 h2
    exact absurd h1 h
  · rename_i heq
    injection heq with h1 h2
    subst h1; subst h2
    rfl

/-! ### Split / join facts -/

theorem splitNl_ne_nil (s : List Char) : splitNl s ≠ [] := by
  induction s with
  | nil => simp [splitNl]
  | cons c rest ih =>
    by_cases hc : c = '\n'
    · subst hc; simp [splitNl]
    · rw [splitNl_cons c rest hc]
      cases h : splitNl rest with
      | nil => exact absurd h ih
      | cons a t => simp [consTo]

theorem splitNl_append (a b : List Char) (h : '\n' ∉ a) :
    splitNl (a ++ '\n' :: b) = a :: splitNl b := by
  induction a with
  | nil => simp [splitNl]
  | cons c rest ih =>
    have hc : c ≠ '\n' := fun he => h (he ▸ List.mem_cons_self c rest)
    have hrest : '\n' ∉ rest := fun hm => h (List.mem_cons_of_mem c hm)
    rw [List.cons_append, splitNl_cons c _ hc, ih hrest]
    rfl

theorem splitNl_of_no_nl (a : List Char) (h : '\n' ∉ a) : splitNl a = [a] := by
  induction a with
  | nil => rfl
  | cons c rest ih =>
    have hc : c ≠ '\n' := fun he => h (he ▸ List.mem_cons_self c rest)
    have hrest : '\n' ∉ rest := fun hm => h (List.mem_cons_of_mem c hm)
    rw [splitNl_cons c _ hc, ih hrest]
    rfl

theorem joinNl_splitNl (s : List Char) : joinNl (splitNl s) = s := by
  induction s with
  | nil => rfl
  | cons c rest ih =>
    by_cases hc : c = '\n'
    · subst hc
      rw [splitNl_nl_eq rest]
      cases h : splitNl rest with
      | nil => exact absurd h (splitNl_ne_nil rest)
      | cons a t =>
        rw [h] at ih
        simp [joinNl, ← ih]
    · rw [splitNl_cons c rest hc]
      cases h : splitNl rest with
      | nil => exact absurd h (splitNl_ne_nil rest)
      | cons a t =>
        rw [h] at ih
        cases t with
        | nil => simp_all [consTo, joinNl]
        | cons a2 t2 => simp_all [consTo, joinNl]
where
  splitNl_nl_eq (rest : List Char) : splitNl ('\n' :: rest) = [] :: splitNl rest := rfl

theorem split2nl_append (a b : List Char)
    (h : containsSub (lc "\n\n") a = false) (hl : a.getLast? ≠ some '\n') :
    split2nl (a ++ '\n' :: '\n' :: b) = a :: split2nl b := by
  induction a with
  | nil => rfl
  | cons c rest ih =>
    have hsplit : hasPre (lc "\n\n") (c :: rest) = false ∧
        containsSub (lc "\n\n") rest = false := by
      simpa [containsSub] using h
    have hbridge : c ≠ '\n' ∨ (rest ++ '\n' :: '\n' :: b).head? ≠ some '\n' := by
      by_cases hc : c = '\n'
      · subst hc
        right
        cases rest with
        | nil => simp at hl
        | cons d t =>
          have : ¬ d = '\n' := by
            intro hd
            subst hd
            simp [lc, hasPre] at hsplit
          simpa using this
      · exact Or.inl hc
    rw [List.cons_append, split2nl_cons _ _ hbridge]
    cases rest with
    | nil =>
      simp only [List.nil_append]
      rw [split2nl.eq_def]
      rfl
    | cons d t =>
      rw [ih hsplit.2 (by simpa using hl)]
      rfl

theorem split2nl_of_no (a : List Char) (h : containsSub (lc "\n\n") a = false) :
    split2nl a = [a] := by
  induction a with
  | nil => rfl
  | cons c rest ih =>
    have hsplit : hasPre (lc "\n\n") (c :: rest) = false ∧
        containsSub (lc "\n\n") rest = false := by
      simpa [containsSub] using h
    have hbridge : c ≠ '\n' ∨ rest.head? ≠ some '\n' := by
      by_cases hc : c = '\n'
      · subst hc
        right
        cases rest with
        | nil => simp
        | cons d t =>
          have : ¬ d = '\n' := by
            intro hd
            subst hd
            simp [lc, hasPre] at hsplit
          simpa using this
      · exact Or.inl hc
    rw [split2nl_cons _ _ hbridge, ih hsplit.2]
    rfl

theorem splitArrow_append (a b : List Char) (h : ' ' ∉ a) :
    splitArrow (a ++ ' ' :: '-' :: '-' :: '>' :: ' ' :: b) = a :: splitArrow b := by
  induction a with
  | nil => rfl
  | cons c rest ih =>
    have hc : c ≠ ' ' := fun he => h (he ▸ List.mem_cons_self c rest)
    have hrest : ' ' ∉ rest := fun hm => h (List.mem_cons_of_mem c hm)
    rw [List.cons_append, splitArrow_cons _ _ hc, ih hrest]
    rfl

theorem splitArrow_of_no (a : List Char) (h : ' ' ∉ a) : splitArrow a = [a] := by
  induction a with
  | nil => rfl
  | cons c rest ih =>
    have hc : c ≠ ' ' := fun he => h (he ▸ List.mem_cons_self c rest)
    have hrest : ' ' ∉ rest := fun hm => h (List.mem_cons_of_mem c hm)
    rw [splitArrow_cons _ _ hc, ih hrest]
    rfl

/-! ### Substring facts -/

theorem hasPre_mem (pat s : List Char) (h : hasPre pat s = true) :
    ∀ c ∈ pat, c ∈ s := by
  induction pat generalizing s with
  | nil => simp
  | cons p ps ih =>
    cases s with
    | nil => simp [hasPre] at h
    | cons c cs =>
      simp only [hasPre, Bool.and_eq_true, decide_eq_true_eq] at h
      intro x hx
      rcases List.mem_cons.mp hx with rfl | hx
      · exact h.1 ▸ List.mem_cons_self _ _
      · exact List.mem_cons_of_mem _ (ih cs h.2 x hx)

theorem containsSub_mem (pat s : List Char) (h : containsSub pat s = true) :
    ∀ c ∈ pat, c ∈ s := by
  induction s with
  | nil =>
    intro c hc
    cases pat with
    | nil => simp at hc
    | cons p ps => simp [containsSub, hasPre] at h
  | cons c cs ih =>
    simp only [containsSub, Bool.or_eq_true] at h
    rcases h with h | h
    · exact hasPre_mem _ _ h
    · exact fun x hx => List.mem_cons_of_mem _ (ih h x hx)

theorem containsSub_false_of_not_mem (pat s : List Char) (d : Char)
    (hd : d ∈ pat) (hs : d ∉ s) : containsSub pat s = false := by
  cases h : containsSub pat s
  · rfl
  · exact absurd (containsSub_mem pat s h d hd) hs

theorem hasPre_append_self (p x : List Char) : hasPre p (p ++ x) = true := by
  induction p with
  | nil => rfl
  | cons a ps ih => simp [hasPre, ih]

theorem containsSub_of_hasPre (pat s : List Char) (h : hasPre pat s = true) :
    containsSub pat s = true := by
  cases s with
  | nil => simpa [containsSub] using h
  | cons c cs => simp [containsSub, h]

theorem containsSub_exact (pat a b : List Char) :
    containsSub pat (a ++ pat ++ b) = true := by
  induction a with
  | nil =>
    exact containsSub_of_hasPre _ _ (by simpa using hasPre_append_self pat b)
  | cons c rest ih =>
    simp only [List.cons_append, containsSub, Bool.or_eq_true]
    right
    simpa using ih

/-! ### `pyStrip` facts -/

theorem dropWhile_of_head_false {α : Type} (p : α → Bool) (l : List α)
    (h : ∀ c, l.head? = some c → p c = false) : l.dropWhile p = l := by
  cases l with
  | nil => rfl
  | cons a t =>
    rw [List.dropWhile_cons]
    simp [h a rfl]

theorem dropWhile_append_all {α : Type} (p : α → Bool) (b l : List α)
    (h : ∀ c ∈ b, p c = true) : (b ++ l).dropWhile p = l.dropWhile p := by
  induction b with
  | nil => rfl
  | cons a t ih =>
    rw [List.cons_append, List.dropWhile_cons]
    simp only [h a (List.mem_cons_self a t), if_true]
    exact ih fun c hc => h c (List.mem_cons_of_mem a hc)

theorem pyStrip_eq_self (s : List Char)
    (h1 : ∀ c, s.head? = some c → pyWs c = false)
    (h2 : ∀ c, s.getLast? = some c → pyWs c = false) : pyStrip s = s := by
  unfold pyStrip
  rw [dropWhile_of_head_false pyWs s h1]
  rw [dropWhile_of_head_false pyWs s.reverse (by simpa [List.head?_reverse] using h2)]
  exact List.reverse_reverse s

theorem pyStrip_append_ws (a b : List Char) (hb : ∀ c ∈ b, pyWs c = true)
    (h1 : ∀ c, a.head? = some c → pyWs c = false)
    (h2 : ∀ c, a.getLast? = some c → pyWs c = false) : pyStrip (a ++ b) = a := by
  cases a with
  | nil =>
    unfold pyStrip
    have : List.dropWhile pyWs b = [] := by
      have := dropWhile_append_all pyWs b [] hb
      simpa using this
    simp [this]
  | cons x t =>
    unfold pyStrip
    rw [dropWhile_of_head_false pyWs ((x :: t) ++ b)
      (by intro c hc; simp at hc; exact hc ▸ h1 x rfl)]
    rw [List.reverse_append, dropWhile_append_all pyWs b.reverse _
      (fun c hc => hb c (List.mem_reverse.mp hc))]
    rw [dropWhile_of_head_false pyWs (x :: t).reverse
      (by intro c hc; rw [List.head?_reverse] at hc; exact h2 c hc)]
    exact List.reverse_reverse _

/-! ### `uninl` facts -/

theorem uninl_of_no_cr (s : List Char) (h : '\r' ∉ s) : uninl s = s := by
  induction s with
  | nil => rfl
  | cons c rest ih =>
    have hc : c ≠ '\r' := fun he => h (he ▸ List.mem_cons_self c rest)
    have hrest : '\r' ∉ rest := fun hm => h (List.mem_cons_of_mem c hm)
    rw [uninl_cons c rest hc, ih hrest]

theorem uninl_append_no_cr (a b : List Char) (h : '\r' ∉ a) :
    uninl (a ++ b) = a ++ uninl b := by
  induction a with
  | nil => rfl
  | cons c rest ih =>
    have hc : c ≠ '\r' := fun he => h (he ▸ List.mem_cons_self c rest)
    have hrest : '\r' ∉ rest := fun hm => h (List.mem_cons_of_mem c hm)
    rw [List.cons_append, uninl_cons c _ hc, ih hrest, List.cons_append]

/-! ### Decimal rendering facts -/

theorem digitChar_mem (d : Nat) (h : d < 10) : digitChar d ∈ lc "0123456789" := by
  interval_cases d <;> decide

theorem natCharsAux_mem (fuel : Nat) :
    ∀ (n : Nat) (acc : List Char) (c : Char), c ∈ natCharsAux fuel n acc →
      c ∈ acc ∨ c ∈ lc "0123456789" := by
  induction fuel with
  | zero => intro n acc c hc; exact Or.inl hc
  | succ fuel ih =>
    intro n acc c hc
    unfold natCharsAux at hc
    by_cases hn : n = 0
    · simp [hn] at hc; exact Or.inl hc
    · simp only [hn, if_false] at hc
      rcases ih (n / 10) _ c hc with h | h
      · rcases List.mem_cons.mp h with rfl | h
        · exact Or.inr (digitChar_mem _ (Nat.mod_lt n (by norm_num)))
        · exact Or.inl h
      · exact Or.inr h

theorem natChars_mem (n : Nat) (c : Char) (h : c ∈ natChars n) :
    c ∈ lc "0123456789" := by
  unfold natChars at h
  by_cases hn : n = 0
  · simp [hn] at h; simp [h]; decide
  · simp only [hn, if_false] at h
    rcases natCharsAux_mem _ _ _ _ h with h | h
    · simp at h
    · exact h

theorem digit_facts (c : Char) (h : c ∈ lc "0123456789") :
    pyWs c = false ∧ c ≠ '\n' ∧ c ≠ '\r' ∧ c ≠ ' ' ∧ c ≠ '"' ∧ c ≠ ',' ∧
      c ≠ 'W' := by
  fin_cases h <;> decide

theorem natCharsAux_len_ge (fuel : Nat) :
    ∀ (n : Nat) (acc : List Char),
      acc.length ≤ (natCharsAux fuel n acc).length := by
  induction fuel with
  | zero => intro n acc; exact Nat.le_refl _
  | succ fuel ih =>
    intro n acc
    unfold natCharsAux
    by_cases hn : n = 0
    · simp [hn]
    · simp only [hn, if_false]
      exact Nat.le_trans (by simp) (ih (n / 10) (digitChar (n % 10) :: acc))

theorem natChars_ne_nil (n : Nat) : natChars n ≠ [] := by
  unfold natChars
  by_cases hn : n = 0
  · simp [hn]
  · simp only [hn, if_false]
    intro h
    have h1 : natCharsAux (n + 1) n [] =
        natCharsAux n (n / 10) [digitChar (n % 10)] := by
      conv_lhs => rw [natCharsAux]
      simp [hn]
    have h2 := natCharsAux_len_ge n (n / 10) [digitChar (n % 10)]
    rw [← h1, h] at h2
    simp at h2

theorem natCharsAux_len_le (k : Nat) :
    ∀ (fuel n : Nat) (acc : List Char), n < 10 ^ k →
      (natCharsAux fuel n acc).length ≤ acc.length + k := by
  induction k with
  | zero =>
    intro fuel n acc hn
    have : n = 0 := by omega
    subst this
    cases fuel <;> simp [natCharsAux]
  | succ k ih =>
    intro fuel n acc hn
    cases fuel with
    | zero =>
      simp only [natCharsAux]
      omega
    | succ fuel =>
      simp only [natCharsAux]
      by_cases h0 : n = 0
      · simp only [h0, if_true]
        omega
      · simp only [h0, if_false]
        have hdiv : n / 10 < 10 ^ k := by
          rw [Nat.div_lt_iff_lt_mul (by norm_num)]
          calc n < 10 ^ (k + 1) := hn
          _ = 10 ^ k * 10 := by ring
        have := ih fuel (n / 10) (digitChar (n % 10) :: acc) hdiv
        simp only [List.length_cons] at this
        omega

theorem natChars_len_le (k n : Nat) (h : n < 10 ^ k) (hk : 1 ≤ k) :
    (natChars n).length ≤ k := by
  unfold natChars
  by_cases hn : n = 0
  · simpa [hn] using hk
  · simp only [hn, if_false]
    simpa using natCharsAux_len_le k (n + 1) n [] h

theorem pad2_len (n : Nat) (h : n < 100) : (pad2 n).length = 2 := by
  have := natChars_len_le 2 n (by norm_num; omega) (by norm_num)
  simp only [pad2, padZero, List.length_append, List.length_replicate]
  omega

theorem pad3_len (n : Nat) (h : n < 1000) : (pad3 n).length = 3 := by
  have := natChars_len_le 3 n (by norm_num; omega) (by norm_num)
  simp only [pad3, padZero, List.length_append, List.length_replicate]
  omega

theorem pad2_mem (n : Nat) (c : Char) (h : c ∈ pad2 n) : c ∈ lc "0123456789" := by
  simp only [pad2, padZero, List.mem_append] at h
  rcases h with h | h
  · rw [List.eq_of_mem_replicate h]; decide
  · exact natChars_mem n c h

theorem pad3_mem (n : Nat) (c : Char) (h : c ∈ pad3 n) : c ∈ lc "0123456789" := by
  simp only [pad3, padZero, List.mem_append] at h
  rcases h with h | h
  · rw [List.eq_of_mem_replicate h]; decide
  · exact natChars_mem n c h

theorem format_vtt_time_mem (ms : Nat) (c : Char)
    (h : c ∈ FormatHandler.format_vtt_time ms) : c ∈ lc "0123456789:." := by
  simp only [FormatHandler.format_vtt_time, List.mem_append] at h
  have digit_sub : ∀ d : Char, d ∈ lc "0123456789" → d ∈ lc "0123456789:." := by
    intro d hd
    fin_cases hd <;> decide
  rcases h with ((((((h | h) | h) | h) | h) | h) | h)
  · exact digit_sub c (pad2_mem _ c h)
  · simp [lc] at h; simp [h]; decide
  · exact digit_sub c (pad2_mem _ c h)
  · simp [lc] at h; simp [h]; decide
  · exact digit_sub c (pad2_mem _ c h)
  · simp [lc] at h; simp [h]; decide
  · exact digit_sub c (pad3_mem _ c h)

theorem format_srt_time_mem (ms : Nat) (c : Char)
    (h : c ∈ FormatHandler.format_srt_time ms) : c ∈ lc "0123456789:," := by
  simp only [FormatHandler.format_srt_time, List.mem_append] at h
  have digit_sub : ∀ d : Char, d ∈ lc "0123456789" → d ∈ lc "0123456789:," := by
    intro d hd
    fin_cases hd <;> decide
  rcases h with ((((((h | h) | h) | h) | h) | h) | h)
  · exact digit_sub c (pad2_mem _ c h)
  · simp [lc] at h; simp [h]; decide
  · exact digit_sub c (pad2_mem _ c h)
  · simp [lc] at h; simp [h]; decide
  · exact digit_sub c (pad2_mem _ c h)
  · simp [lc] at h; simp [h]; decide
  · exact digit_sub c (pad3_mem _ c h)

theorem format_vtt_time_ne_nil (ms : Nat) : FormatHandler.format_vtt_time ms ≠ [] := by
  intro h
  have := congrArg List.length h
  simp [FormatHandler.format_vtt_time, lc] at this

theorem format_srt_time_ne_nil (ms : Nat) : FormatHandler.format_srt_time ms ≠ [] := by
  intro h
  have := congrArg List.length h
  simp [FormatHandler.format_srt_time, lc] at this

/-- Character facts for the timestamp alphabet of either format. -/
theorem ts_char_facts (c : Char) (h : c ∈ lc "0123456789:." ∨ c ∈ lc "0123456789:,") :
    pyWs c = false ∧ c ≠ '\n' ∧ c ≠ '\r' ∧ c ≠ ' ' ∧ c ≠ '"' := by
  rcases h with h | h <;> (fin_cases h <;> decide)

/-! ### C7: the time formatters -/

/-- C7 counterexample: at 360000 seconds (100 hours) the hour field has
three digits, so the output is not in the two-digit `HH:MM:SS.mmm`
notation the claim states for every non-negative duration. -/
theorem c7_counterexample :
    FormatHandler.format_vtt_time (360000 * 1000) = lc "100:00:00.000" ∧
    FormatHandler.format_srt_time (360000 * 1000) = lc "100:00:00,000" ∧
    (FormatHandler.format_vtt_time (360000 * 1000)).length ≠ 12 ∧
    (FormatHandler.format_srt_time (360000 * 1000)).length ≠ 12 := by
  decide

/-- C7 (amended to durations below 100 hours): for every whole-millisecond
duration `ms < 360000000`, `format_vtt_time` renders `HH:MM:SS.mmm` and
`format_srt_time` renders `HH:MM:SS,mmm`: two-digit zero-padded hours,
minutes and seconds, three-digit milliseconds, all digit characters, and
the four fields decode back to exactly the input duration. -/
theorem c7_time_format (ms : Nat) (hms : ms < 360000000) :
    ∃ h m s r : Nat,
      ms = ((h * 60 + m) * 60 + s) * 1000 + r ∧
      h < 100 ∧ m < 60 ∧ s < 60 ∧ r < 1000 ∧
      FormatHandler.format_vtt_time ms =
        pad2 h ++ lc ":" ++ pad2 m ++ lc ":" ++ pad2 s ++ lc "." ++ pad3 r ∧
      FormatHandler.format_srt_time ms =
        pad2 h ++ lc ":" ++ pad2 m ++ lc ":" ++ pad2 s ++ lc "," ++ pad3 r ∧
      (pad2 h).length = 2 ∧ (pad2 m).length = 2 ∧ (pad2 s).length = 2 ∧
      (pad3 r).length = 3 ∧
      (∀ c : Char, (c ∈ pad2 h ∨ c ∈ pad2 m ∨ c ∈ pad2 s ∨ c ∈ pad3 r) →
        c ∈ lc "0123456789") := by
  refine ⟨ms / 3600000, ms % 3600000 / 60000, ms % 60000 / 1000, ms % 1000,
    ?_, ?_, ?_, ?_, ?_, rfl, rfl, ?_, ?_, ?_, ?_, ?_⟩
  · omega
  · omega
  · omega
  · omega
  · omega
  · exact pad2_len _ (by omega)
  · exact pad2_len _ (by omega)
  · exact pad2_len _ (by omega)
  · exact pad3_len _ (by omega)
  · intro c hc
    rcases hc with h | h | h | h
    · exact pad2_mem _ c h
    · exact pad2_mem _ c h
    · exact pad2_mem _ c h
    · exact pad3_mem _ c h

/-- C7 witness: the amended statement applied at 1 h 2 min 3.456 s. -/
theorem c7_witness :
    3723456 < 360000000 ∧
    ∃ h m s r : Nat,
      3723456 = ((h * 60 + m) * 60 + s) * 1000 + r ∧
      h < 100 ∧ m < 60 ∧ s < 60 ∧ r < 1000 ∧
      FormatHandler.format_vtt_time 3723456 =
        pad2 h ++ lc ":" ++ pad2 m ++ lc ":" ++ pad2 s ++ lc "." ++ pad3 r ∧
      FormatHandler.format_srt_time 3723456 =
        pad2 h ++ lc ":" ++ pad2 m ++ lc ":" ++ pad2 s ++ lc "," ++ pad3 r ∧
      (pad2 h).length = 2 ∧ (pad2 m).length = 2 ∧ (pad2 s).length = 2 ∧
      (pad3 r).length = 3 ∧
      (∀ c : Char, (c ∈ pad2 h ∨ c ∈ pad2 m ∨ c ∈ pad2 s ∨ c ∈ pad3 r) →
        c ∈ lc "0123456789") :=
  ⟨by norm_num, c7_time_format 3723456 (by norm_num)⟩

/-! ### The `load_model` fallback ladder -/

theorem find?_append_or {α : Type} (p : α → Bool) (l1 l2 : List α) :
    List.find? p (l1 ++ l2) =
      (match List.find? p l1 with
       | some x => some x
       | none => List.find? p l2) := by
  induction l1 with
  | nil => simp
  | cons a t ih =>
    by_cases hp : p a
    · simp [List.find?, hp]
    · simp only [List.cons_append, List.find?, hp]
      simpa [hp] using ih

theorem tryTypes_fail {H : Type} (ctor : String → String → Option H)
    (d : String) (ts : List String) (h : ∀ t ∈ ts, ctor d t = none) :
    Transcriber.tryTypes ctor d ts = (none, ts.map (fun t => (d, t))) := by
  induction ts with
  | nil => rfl
  | cons t rest ih =>
    have ht := h t (List.mem_cons_self t rest)
    simp only [Transcriber.tryTypes, ht]
    rw [ih fun u hu => h u (List.mem_cons_of_mem t hu)]
    simp

theorem tryTypes_none_all {H : Type} (ctor : String → String → Option H)
    (d : String) (ts : List String)
    (h : (Transcriber.tryTypes ctor d ts).1 = none) : ∀ t ∈ ts, ctor d t = none := by
  induction ts with
  | nil => simp
  | cons t rest ih =>
    intro u hu
    rcases List.mem_cons.mp hu with rfl | hu
    · cases hc : ctor d u
      · rfl
      · simp [Transcriber.tryTypes, hc] at h
    · cases hc : ctor d t
      · simp only [Transcriber.tryTypes, hc] at h
        exact ih h u hu
      · simp [Transcriber.tryTypes, hc] at h

theorem tryTypes_some_mem {H : Type} (ctor : String → String → Option H)
    (d : String) (ts : List String) (h : H) (t : String)
    (he : (Transcriber.tryTypes ctor d ts).1 = some (h, t)) :
    t ∈ ts ∧ ctor d t = some h := by
  induction ts with
  | nil => simp [Transcriber.tryTypes] at he
  | cons u rest ih =>
    cases hc : ctor d u with
    | some v =>
      simp only [Transcriber.tryTypes, hc, Option.some.injEq, Prod.mk.injEq] at he
      exact ⟨he.2 ▸ List.mem_cons_self u rest, by rw [← he.2, hc, he.1]⟩
    | none =>
      simp only [Transcriber.tryTypes, hc] at he
      have := ih he
      exact ⟨List.mem_cons_of_mem u this.1, this.2⟩

theorem tryTypes_find {H : Type} (ctor : String → String → Option H)
    (d : String) (ts : List String) (t : String)
    (hf : ts.find? (fun u => (ctor d u).isSome) = some t) :
    ∃ h, ctor d t = some h ∧
      Transcriber.tryTypes ctor d ts =
        (some (h, t),
         (ts.takeWhile (fun u => (ctor d u).isNone)).map (fun u => (d, u)) ++
           [(d, t)]) := by
  induction ts with
  | nil => simp at hf
  | cons u rest ih =>
    cases hc : ctor d u with
    | some v =>
      have hut : u = t := by
        rw [List.find?] at hf
        simp [hc] at hf
        exact hf
      subst hut
      refine ⟨v, hc, ?_⟩
      simp [Transcriber.tryTypes, hc, List.takeWhile_cons]
    | none =>
      rw [List.find?] at hf
      simp only [hc, Option.isSome_none, Bool.false_eq_true, if_false] at hf
      obtain ⟨h, hh, he⟩ := ih hf
      refine ⟨h, hh, ?_⟩
      simp [Transcriber.tryTypes, hc, he, List.takeWhile_cons]

theorem earlyReturn_false_of_fresh {H : Type} (st : Transcriber.TState H)
    (mn d : String) (hfresh : st.whisper_model = none) :
    ¬ Transcriber.earlyReturn st mn d := by
  intro h
  rw [Transcriber.earlyReturn, hfresh] at h
  simp at h

/-- C2 (amended with the fresh-state hypothesis): starting from a state
with no loaded model handle, `load_model` raises if and only if the
constructor fails on every `(device, precision)` combination of the
effective preferred-device list followed by the CPU list, and when it
raises it has attempted exactly that whole combination list, in order —
never leaving a combination untried. -/
theorem c2_fallback_exhaustion {H : Type} (st : Transcriber.TState H)
    (model_name device compute_type : String) (cudaAvail : Bool)
    (ctor : String → String → Option H) (hfresh : st.whisper_model = none) :
    ((∃ e, (Transcriber.load_model st model_name device compute_type
        cudaAvail ctor).1 = Except.error e) ↔
      ∀ p ∈ Transcriber.fullCombos device compute_type cudaAvail,
        ctor p.1 p.2 = none) ∧
    ((∀ p ∈ Transcriber.fullCombos device compute_type cudaAvail,
        ctor p.1 p.2 = none) →
      (Transcriber.load_model st model_name device compute_type
        cudaAvail ctor).2 =
        Transcriber.fullCombos device compute_type cudaAvail) := by
  have hne := earlyReturn_false_of_fresh st model_name device hfresh
  by_cases hcu : Transcriber.effDev device cudaAvail = "cuda"
  · cases hp1 : (Transcriber.tryTypes ctor "cuda"
        (Transcriber.orderedCudaTypes compute_type)).1 with
    | none =>
      have hcudafail := tryTypes_none_all _ _ _ hp1
      cases hp2 : (Transcriber.tryTypes ctor "cpu" Transcriber.cpuTypes).1 with
      | none =>
        have hcpufail := tryTypes_none_all _ _ _ hp2
        have htr1 := tryTypes_fail ctor "cuda" _ hcudafail
        have htr2 := tryTypes_fail ctor "cpu" _ hcpufail
        constructor
        · constructor
          · intro _ p hp
            simp only [Transcriber.fullCombos, hcu, if_true, List.mem_append,
              List.mem_map] at hp
            rcases hp with ⟨t, ht, rfl⟩ | ⟨t, ht, rfl⟩
            · exact hcudafail t ht
            · exact hcpufail t ht
          · intro _
            refine ⟨"Could not load Whisper model '" ++ model_name ++
              "' on any device/compute type.", ?_⟩
            simp [Transcriber.load_model, if_neg hne, hcu, htr1, hfresh, htr2]
        · intro _
          simp [Transcriber.load_model, if_neg hne, hcu, htr1, hfresh, htr2,
            Transcriber.fullCombos]
      | some ht =>
        obtain ⟨h, t⟩ := ht
        have hmem := tryTypes_some_mem ctor "cpu" _ h t hp2
        constructor
        · constructor
          · intro ⟨e, he⟩
            exfalso
            simp [Transcriber.load_model, if_neg hne, hcu, hp1, hfresh, hp2] at he
          · intro hall
            exfalso
            have := hall ("cpu", t) (by
              simp only [Transcriber.fullCombos, hcu, if_true, List.mem_append,
                List.mem_map]
              exact Or.inr ⟨t, hmem.1, rfl⟩)
            rw [this] at hmem
            exact Option.noConfusion hmem.2
        · intro hall
          exfalso
          have := hall ("cpu", t) (by
            simp only [Transcriber.fullCombos, hcu, if_true, List.mem_append,
              List.mem_map]
            exact Or.inr ⟨t, hmem.1, rfl⟩)
          rw [this] at hmem
          exact Option.noConfusion hmem.2
    | some ht =>
      obtain ⟨h, t⟩ := ht
      have hmem := tryTypes_some_mem ctor "cuda" _ h t hp1
      constructor
      · constructor
        · intro ⟨e, he⟩
          exfalso
          simp [Transcriber.load_model, if_neg hne, hcu, hp1] at he
        · intro hall
          exfalso
          have := hall ("cuda", t) (by
            simp only [Transcriber.fullCombos, hcu, if_true, List.mem_append,
              List.mem_map]
            exact Or.inl ⟨t, hmem.1, rfl⟩)
          rw [this] at hmem
          exact Option.noConfusion hmem.2
      · intro hall
        exfalso
        have := hall ("cuda", t) (by
          simp only [Transcriber.fullCombos, hcu, if_true, List.mem_append,
            List.mem_map]
          exact Or.inl ⟨t, hmem.1, rfl⟩)
        rw [this] at hmem
        exact Option.noConfusion hmem.2
  · cases hp2 : (Transcriber.tryTypes ctor "cpu" Transcriber.cpuTypes).1 with
    | none =>
      have hcpufail := tryTypes_none_all _ _ _ hp2
      have htr2 := tryTypes_fail ctor "cpu" _ hcpufail
      constructor
      · constructor
        · intro _ p hp
          simp only [Transcriber.fullCombos, hcu, if_false, List.nil_append,
            List.mem_map] at hp
          obtain ⟨t, ht, rfl⟩ := hp
          exact hcpufail t ht
        · intro _
          refine ⟨"Could not load Whisper model '" ++ model_name ++
            "' on any device/compute type.", ?_⟩
          simp [Transcriber.load_model, if_neg hne, hcu, hfresh, htr2]
      · intro _
        simp [Transcriber.load_model, if_neg hne, hcu, hfresh, htr2,
          Transcriber.fullCombos]
    | some ht =>
      obtain ⟨h, t⟩ := ht
      have hmem := tryTypes_some_mem ctor "cpu" _ h t hp2
      constructor
      · constructor
        · intro ⟨e, he⟩
          exfalso
          simp [Transcriber.load_model, if_neg hne, hcu, hfresh, hp2] at he
        · intro hall
          exfalso
          have := hall ("cpu", t) (by
            simp only [Transcriber.fullCombos, hcu, if_false, List.nil_append,
              List.mem_map]
            exact ⟨t, hmem.1, rfl⟩)
          rw [this] at hmem
          exact Option.noConfusion hmem.2
      · intro hall
        exfalso
        have := hall ("cpu", t) (by
          simp only [Transcriber.fullCombos, hcu, if_false, List.nil_append,
            List.mem_map]
          exact ⟨t, hmem.1, rfl⟩)
        rw [this] at hmem
        exact Option.noConfusion hmem.2

theorem takeWhile_append_stop {α : Type} (pr : α → Bool) (l1 l2 : List α)
    (h : ∃ x ∈ l1, pr x = false) :
    List.takeWhile pr (l1 ++ l2) = List.takeWhile pr l1 := by
  induction l1 with
  | nil => simp at h
  | cons a t ih =>
    by_cases hp : pr a
    · simp only [List.cons_append, List.takeWhile_cons, hp, if_true]
      obtain ⟨x, hx, hpx⟩ := h
      rcases List.mem_cons.mp hx with rfl | hx
      · rw [hp] at hpx; cases hpx
      · rw [ih ⟨x, hx, hpx⟩]
    · simp only [List.cons_append, List.takeWhile_cons, if_neg hp]

theorem takeWhile_append_pos {α : Type} (pr : α → Bool) (l1 l2 : List α)
    (h : ∀ x ∈ l1, pr x = true) :
    List.takeWhile pr (l1 ++ l2) = l1 ++ List.takeWhile pr l2 := by
  induction l1 with
  | nil => simp
  | cons a t ih =>
    simp only [List.cons_append, List.takeWhile_cons,
      h a (List.mem_cons_self a t), if_true]
    rw [ih fun x hx => h x (List.mem_cons_of_mem a hx)]

theorem find?_map_pair (pr : String × String → Bool) (d : String)
    (ts : List String) (p : String × String)
    (h : List.find? pr (ts.map (fun t => (d, t))) = some p) :
    ∃ t, ts.find? (fun u => pr (d, u)) = some t ∧ p = (d, t) := by
  rw [List.find?_map] at h
  obtain ⟨t, hft, hpt⟩ := Option.map_eq_some'.mp h
  exact ⟨t, hft, hpt.symm⟩

theorem find?_map_pair_none (pr : String × String → Bool) (d : String)
    (ts : List String)
    (h : List.find? pr (ts.map (fun t => (d, t))) = none) :
    ts.find? (fun u => pr (d, u)) = none := by
  rw [List.find?_map] at h
  exact Option.map_eq_none'.mp h

/-- C3 (amended with the fresh-state hypothesis): starting from a state
with no loaded model, `load_model` tries the ordered preferred-device
precision list and then the full CPU list, stops at the first successful
constructor, and records exactly that handle together with the
`(device, precision)` pair used (as `_last_device` and
`_last_compute_type`); when no combination succeeds it raises. -/
theorem c3_first_success {H : Type} (st : Transcriber.TState H)
    (model_name device compute_type : String) (cudaAvail : Bool)
    (ctor : String → String → Option H) (hfresh : st.whisper_model = none) :
    (∀ p, (Transcriber.fullCombos device compute_type cudaAvail).find?
        (fun q => (ctor q.1 q.2).isSome) = some p →
      (Transcriber.load_model st model_name device compute_type
          cudaAvail ctor).1 =
        Except.ok ⟨ctor p.1 p.2, some model_name, some p.1, some p.2⟩ ∧
      (Transcriber.load_model st model_name device compute_type
          cudaAvail ctor).2 =
        (Transcriber.fullCombos device compute_type cudaAvail).takeWhile
          (fun q => (ctor q.1 q.2).isNone) ++ [p]) ∧
    ((Transcriber.fullCombos device compute_type cudaAvail).find?
        (fun q => (ctor q.1 q.2).isSome) = none →
      ∃ e, (Transcriber.load_model st model_name device compute_type
          cudaAvail ctor).1 = Except.error e) := by
  have hne := earlyReturn_false_of_fresh st model_name device hfresh
  constructor
  · intro p hp
    by_cases hcu : Transcriber.effDev device cudaAvail = "cuda"
    · rw [Transcriber.fullCombos, hcu, if_pos rfl, find?_append_or] at hp
      cases hcuda : List.find? (fun q => (ctor q.1 q.2).isSome)
          ((Transcriber.orderedCudaTypes compute_type).map
            (fun t => ("cuda", t))) with
      | some p1 =>
        rw [hcuda] at hp
        simp only [Option.some.injEq] at hp
        subst hp
        obtain ⟨t, hfind, rfl⟩ := find?_map_pair _ _ _ _ hcuda
        obtain ⟨h, hh, htt⟩ := tryTypes_find ctor "cuda" _ t hfind
        constructor
        · simp [Transcriber.load_model, if_neg hne, hcu, htt, hh]
        · rw [Transcriber.fullCombos, hcu, if_pos rfl]
          rw [takeWhile_append_stop _ _ _ ⟨("cuda", t),
            List.mem_of_find?_eq_some hcuda, by simp [hh]⟩]
          rw [List.takeWhile_map]
          have hcomp : ((fun q => (ctor q.1 q.2).isNone) ∘ fun u => ("cuda", u)) =
              (fun u => (ctor "cuda" u).isNone) := rfl
          rw [hcomp]
          simp [Transcriber.load_model, if_neg hne, hcu, htt, hh]
      | none =>
        rw [hcuda] at hp
        have hcudanone := find?_map_pair_none _ _ _ hcuda
        have hcudafail : ∀ u ∈ Transcriber.orderedCudaTypes compute_type,
            ctor "cuda" u = none := by
          intro u hu
          have := List.find?_eq_none.mp hcudanone u hu
          simpa using this
        have htr1 := tryTypes_fail ctor "cuda" _ hcudafail
        obtain ⟨t, hfind, rfl⟩ := find?_map_pair _ _ _ _ hp
        obtain ⟨h, hh, htt⟩ := tryTypes_find ctor "cpu" _ t hfind
        constructor
        · simp [Transcriber.load_model, if_neg hne, hcu, htr1, hfresh, htt, hh]
        · rw [Transcriber.fullCombos, hcu, if_pos rfl]
          rw [takeWhile_append_pos _ _ _ (by
            intro x hx
            obtain ⟨u, hu, rfl⟩ := List.mem_map.mp hx
            simp [hcudafail u hu])]
          rw [List.takeWhile_map]
          have hcomp : ((fun q => (ctor q.1 q.2).isNone) ∘ fun u => ("cpu", u)) =
              (fun u => (ctor "cpu" u).isNone) := rfl
          rw [hcomp]
          simp [Transcriber.load_model, if_neg hne, hcu, htr1, hfresh, htt, hh]
    · rw [Transcriber.fullCombos, if_neg hcu, List.nil_append] at hp
      obtain ⟨t, hfind, rfl⟩ := find?_map_pair _ _ _ _ hp
      obtain ⟨h, hh, htt⟩ := tryTypes_find ctor "cpu" _ t hfind
      constructor
      · simp [Transcriber.load_model, if_neg hne, hcu, hfresh, htt, hh]
      · rw [Transcriber.fullCombos, if_neg hcu, List.nil_append,
          List.takeWhile_map]
        have hcomp : ((fun q => (ctor q.1 q.2).isNone) ∘ fun u => ("cpu", u)) =
            (fun u => (ctor "cpu" u).isNone) := rfl
        rw [hcomp]
        simp [Transcriber.load_model, if_neg hne, hcu, hfresh, htt, hh]
  · intro hnone
    have hallfail : ∀ p ∈ Transcriber.fullCombos device compute_type cudaAvail,
        ctor p.1 p.2 = none := by
      intro p hp
      have := List.find?_eq_none.mp hnone p hp
      simpa using this
    refine ⟨"Could not load Whisper model '" ++ model_name ++
      "' on any device/compute type.", ?_⟩
    by_cases hcu : Transcriber.effDev device cudaAvail = "cuda"
    · have hcudafail : ∀ u ∈ Transcriber.orderedCudaTypes compute_type,
          ctor "cuda" u = none := by
        intro u hu
        exact hallfail ("cuda", u) (by
          simp only [Transcriber.fullCombos, hcu, if_true, List.mem_append,
            List.mem_map]
          exact Or.inl ⟨u, hu, rfl⟩)
      have hcpufail : ∀ u ∈ Transcriber.cpuTypes, ctor "cpu" u = none := by
        intro u hu
        exact hallfail ("cpu", u) (by
          simp only [Transcriber.fullCombos, hcu, if_true, List.mem_append,
            List.mem_map]
          exact Or.inr ⟨u, hu, rfl⟩)
      have htr1 := tryTypes_fail ctor "cuda" _ hcudafail
      have htr2 := tryTypes_fail ctor "cpu" _ hcpufail
      simp [Transcriber.load_model, if_neg hne, hcu, htr1, hfresh, htr2]
    · have hcpufail : ∀ u ∈ Transcriber.cpuTypes, ctor "cpu" u = none := by
        intro u hu
        exact hallfail ("cpu", u) (by
          simp only [Transcriber.fullCombos, hcu, if_false, List.nil_append,
            List.mem_map]
          exact ⟨u, hu, rfl⟩)
      have htr2 := tryTypes_fail ctor "cpu" _ hcpufail
      simp [Transcriber.load_model, if_neg hne, hcu, hfresh, htr2]

theorem tryTypes_trace_ne_nil {H : Type} (ctor : String → String → Option H)
    (d : String) (ts : List String) (hts : ts ≠ []) :
    (Transcriber.tryTypes ctor d ts).2 ≠ [] := by
  cases ts with
  | nil => exact absurd rfl hts
  | cons t rest =>
    cases hc : ctor d t <;> simp [Transcriber.tryTypes, hc]

theorem orderedCudaTypes_ne_nil (ct : String) :
    Transcriber.orderedCudaTypes ct ≠ [] := by
  unfold Transcriber.orderedCudaTypes
  split <;> simp [Transcriber.cudaTypes]

theorem load_model_trace {H : Type} (st : Transcriber.TState H)
    (mn dev ct : String) (avail : Bool) (ctor : String → String → Option H)
    (hne : ¬ Transcriber.earlyReturn st mn dev) :
    (Transcriber.load_model st mn dev ct avail ctor).2 =
      (if Transcriber.effDev dev avail = "cuda"
       then (Transcriber.tryTypes ctor "cuda"
         (Transcriber.orderedCudaTypes ct)).2
       else []) ++
      (if (if Transcriber.effDev dev avail = "cuda"
           then (Transcriber.tryTypes ctor "cuda"
             (Transcriber.orderedCudaTypes ct)).1
           else none).isSome ∨ st.whisper_model.isSome
       then [] else (Transcriber.tryTypes ctor "cpu" Transcriber.cpuTypes).2) := by
  by_cases hcu : Transcriber.effDev dev avail = "cuda"
  · cases hp1 : (Transcriber.tryTypes ctor "cuda"
        (Transcriber.orderedCudaTypes ct)).1 with
    | some ht =>
      obtain ⟨h, t⟩ := ht
      simp [Transcriber.load_model, if_neg hne, hcu, hp1]
    | none =>
      cases hm : st.whisper_model with
      | none =>
        cases hp2 : (Transcriber.tryTypes ctor "cpu" Transcriber.cpuTypes).1 with
        | some ht2 =>
          obtain ⟨h2, t2⟩ := ht2
          simp [Transcriber.load_model, if_neg hne, hcu, hp1, hm, hp2]
        | none =>
          simp [Transcriber.load_model, if_neg hne, hcu, hp1, hm, hp2]
      | some hmod =>
        simp [Transcriber.load_model, if_neg hne, hcu, hp1, hm]
  · cases hm : st.whisper_model with
    | some hmod =>
      simp [Transcriber.load_model, if_neg hne, hcu, hm]
    | none =>
      cases hp2 : (Transcriber.tryTypes ctor "cpu" Transcriber.cpuTypes).1 with
      | some ht2 =>
        obtain ⟨h2, t2⟩ := ht2
        simp [Transcriber.load_model, if_neg hne, hcu, hm, hp2]
      | none =>
        simp [Transcriber.load_model, if_neg hne, hcu, hm, hp2]

/-- C10 (amended): `load_model` makes no construction attempt exactly
when either the early-return guard holds (same model name, an explicit
device equal to the last one used) or some handle — of any model — is
already present and the effective device is not `cuda` (the stale-handle
guard `if not self.whisper_model` then skips the CPU loop too); under
the early-return guard the state is returned unchanged.  In particular,
a repeated `device="auto"` call attempts a reload only when it resolves
to CUDA. -/
theorem c10_reload_guard {H : Type} (st : Transcriber.TState H)
    (model_name device compute_type : String) (cudaAvail : Bool)
    (ctor : String → String → Option H) :
    ((Transcriber.load_model st model_name device compute_type
        cudaAvail ctor).2 = [] ↔
      (Transcriber.earlyReturn st model_name device ∨
        (st.whisper_model.isSome ∧
          Transcriber.effDev device cudaAvail ≠ "cuda"))) ∧
    (Transcriber.earlyReturn st model_name device →
      Transcriber.load_model st model_name device compute_type cudaAvail ctor =
        (Except.ok st, [])) := by
  by_cases he : Transcriber.earlyReturn st model_name device
  · refine ⟨?_, fun _ => by simp [Transcriber.load_model, if_pos he]⟩
    apply iff_of_true
    · simp [Transcriber.load_model, if_pos he]
    · exact Or.inl he
  · refine ⟨?_, fun h => absurd h he⟩
    rw [load_model_trace st model_name device compute_type cudaAvail ctor he]
    by_cases hcu : Transcriber.effDev device cudaAvail = "cuda"
    · apply iff_of_false
      · rw [if_pos hcu]
        intro hemp
        exact tryTypes_trace_ne_nil ctor "cuda" _
          (orderedCudaTypes_ne_nil compute_type)
          (List.append_eq_nil.mp hemp).1
      · rintro (h | ⟨hsome, hnecu⟩)
        · exact he h
        · exact hnecu hcu
    · rw [if_neg hcu, List.nil_append]
      cases hm : st.whisper_model with
      | some hmod =>
        apply iff_of_true
        · simp [hm]
        · exact Or.inr ⟨by simp [hm], hcu⟩
      | none =>
        apply iff_of_false
        · simp only [hm, Option.isSome_none, if_neg hcu]
          simp only [Bool.false_eq_true, or_false, if_false]
          exact tryTypes_trace_ne_nil ctor "cpu" _ (by simp [Transcriber.cpuTypes])
        · rintro (h | ⟨hsome, hnecu⟩)
          · exact he h
          · simp at hsome

/-- C2 counterexample: with a stale handle of another model loaded and a
constructor that fails on every combination, `load_model` tries only the
four CUDA combinations, never reaches the CPU list, raises nothing, and
relabels the old handle with the new model name — refuting the claim
that an all-failing run raises after both precision lists are tried. -/
theorem c2_counterexample :
    Transcriber.load_model (H := Nat)
      ⟨some 7, some "base", some "cuda", some "float16"⟩
      "large" "cuda" "default" true (fun _ _ => none) =
    (Except.ok ⟨some 7, some "large", some "cuda", some "float16"⟩,
     [("cuda", "float16"), ("cuda", "int8_float16"), ("cuda", "int8"),
      ("cuda", "float32")]) := by
  rfl

/-- C2 witness: the amended statement applied to a fresh state, device
`cuda`, and an all-failing constructor. -/
theorem c2_witness :
    ((∃ e, (Transcriber.load_model (H := Nat) ⟨none, none, none, none⟩
        "large" "cuda" "default" true (fun _ _ => none)).1 = Except.error e) ↔
      ∀ p ∈ Transcriber.fullCombos "cuda" "default" true,
        (fun (_ _ : String) => (none : Option Nat)) p.1 p.2 = none) ∧
    ((∀ p ∈ Transcriber.fullCombos "cuda" "default" true,
        (fun (_ _ : String) => (none : Option Nat)) p.1 p.2 = none) →
      (Transcriber.load_model (H := Nat) ⟨none, none, none, none⟩
        "large" "cuda" "default" true (fun _ _ => none)).2 =
        Transcriber.fullCombos "cuda" "default" true) :=
  c2_fallback_exhaustion ⟨none, none, none, none⟩ "large" "cuda" "default"
    true (fun _ _ => none) rfl

/-- C3 counterexample: with a stale handle of another model loaded, a
totally failing CUDA pass does not retry the CPU precision list (the
claim's "on total failure retry the full precision list on the CPU
fallback"): only the four CUDA attempts occur and the call returns the
stale handle relabeled. -/
theorem c3_counterexample :
    Transcriber.load_model (H := Nat)
      ⟨some 5, some "base", some "cpu", some "int8"⟩
      "large" "cuda" "default" true (fun _ _ => none) =
    (Except.ok ⟨some 5, some "large", some "cpu", some "int8"⟩,
     [("cuda", "float16"), ("cuda", "int8_float16"), ("cuda", "int8"),
      ("cuda", "float32")]) ∧
    ((Transcriber.load_model (H := Nat)
      ⟨some 5, some "base", some "cpu", some "int8"⟩
      "large" "cuda" "default" true (fun _ _ => none)).2.all
        (fun p => p.1 = "cuda")) = true := by
  constructor <;> rfl

/-- C3 witness: the amended statement applied to a fresh state with a
constructor succeeding only on `("cpu", "float32")`. -/
theorem c3_witness :
    (∀ p, (Transcriber.fullCombos "auto" "default" false).find?
        (fun q => ((fun d t => if d = "cpu" ∧ t = "float32"
            then some 3 else (none : Option Nat)) q.1 q.2).isSome) = some p →
      (Transcriber.load_model (H := Nat) ⟨none, none, none, none⟩ "large"
          "auto" "default" false
          (fun d t => if d = "cpu" ∧ t = "float32" then some 3 else none)).1 =
        Except.ok ⟨(fun d t => if d = "cpu" ∧ t = "float32"
            then some 3 else (none : Option Nat)) p.1 p.2,
          some "large", some p.1, some p.2⟩ ∧
      (Transcriber.load_model (H := Nat) ⟨none, none, none, none⟩ "large"
          "auto" "default" false
          (fun d t => if d = "cpu" ∧ t = "float32" then some 3 else none)).2 =
        (Transcriber.fullCombos "auto" "default" false).takeWhile
          (fun q => ((fun d t => if d = "cpu" ∧ t = "float32"
            then some 3 else (none : Option Nat)) q.1 q.2).isNone) ++ [p]) ∧
    ((Transcriber.fullCombos "auto" "default" false).find?
        (fun q => ((fun d t => if d = "cpu" ∧ t = "float32"
            then some 3 else (none : Option Nat)) q.1 q.2).isSome) = none →
      ∃ e, (Transcriber.load_model (H := Nat) ⟨none, none, none, none⟩ "large"
          "auto" "default" false
          (fun d t => if d = "cpu" ∧ t = "float32" then some 3 else none)).1 =
        Except.error e) :=
  c3_first_success ⟨none, none, none, none⟩ "large" "auto" "default" false
    (fun d t => if d = "cpu" ∧ t = "float32" then some 3 else none) rfl

/-- C10 counterexample: a call for the already-loaded model with an
explicit device (`cpu`) different from the last device used (`cuda`)
should, by the claim, not return immediately — yet the code makes no
construction attempt and returns the old handle unchanged, because the
stale-handle guard also skips the CPU loop. -/
theorem c10_counterexample :
    Transcriber.load_model (H := Nat)
      ⟨some 3, some "base", some "cuda", some "float16"⟩
      "base" "cpu" "default" false (fun _ _ => some 9) =
    (Except.ok ⟨some 3, some "base", some "cuda", some "float16"⟩, []) ∧
    ¬ (Transcriber.earlyReturn (H := Nat)
      ⟨some 3, some "base", some "cuda", some "float16"⟩ "base" "cpu") := by
  constructor
  · rfl
  · intro h
    rcases h with ⟨-, -, -, hlast⟩
    simp at hlast

/-- C10 witness: the amended statement applied to a same-name state with
`device="auto"` and CUDA unavailable — no construction is attempted. -/
theorem c10_witness :
    ((Transcriber.load_model (H := Nat)
        ⟨some 3, some "base", some "cuda", some "float16"⟩
        "base" "auto" "default" false (fun _ _ => some 9)).2 = [] ↔
      (Transcriber.earlyReturn (H := Nat)
          ⟨some 3, some "base", some "cuda", some "float16"⟩ "base" "auto" ∨
        ((Option.some 3).isSome ∧
          Transcriber.effDev "auto" false ≠ "cuda"))) ∧
    (Transcriber.earlyReturn (H := Nat)
        ⟨some 3, some "base", some "cuda", some "float16"⟩ "base" "auto" →
      Transcriber.load_model (H := Nat)
        ⟨some 3, some "base", some "cuda", some "float16"⟩
        "base" "auto" "default" false (fun _ _ => some 9) =
        (Except.ok ⟨some 3, some "base", some "cuda", some "float16"⟩, [])) :=
  c10_reload_guard ⟨some 3, some "base", some "cuda", some "float16"⟩
    "base" "auto" "default" false (fun _ _ => some 9)

/-- C5: for every text and every target language whose mBART code is not
among the tokenizer's supported codes, `Translator.translate` raises
`ValueError` with a message naming the unsupported target language, and
no generation happens (the event trace is empty). -/
theorem c5_unsupported_target (supported : List String)
    (gen : String → String → String → String)
    (text source_lang target_lang : String)
    (h : Translator.lookupLang target_lang ∉ supported) :
    Translator.translate supported gen text source_lang target_lang =
      (Except.error (PyErr.valueError
        ("Unsupported target language: " ++ target_lang)), []) := by
  simp [Translator.translate, h]

/-- C5 witness: an empty supported-code table rejects target `"qq"`. -/
theorem c5_witness :
    Translator.translate [] (fun _ _ t => t) "hello" "en" "qq" =
      (Except.error (PyErr.valueError "Unsupported target language: qq"), []) :=
  c5_unsupported_target [] (fun _ _ t => t) "hello" "en" "qq"
    (List.not_mem_nil _)

/-! ### Path arithmetic facts -/

theorem dropWhile_head_false {α : Type} (pr : α → Bool) (l : List α) (c : α)
    (h : (l.dropWhile pr).head? = some c) : pr c = false := by
  induction l with
  | nil => simp at h
  | cons a t ih =>
    rw [List.dropWhile_cons] at h
    by_cases hp : pr a
    · rw [if_pos hp] at h
      exact ih h
    · rw [if_neg hp] at h
      simp only [List.head?_cons, Option.some.injEq] at h
      rw [← h]
      exact Bool.not_eq_true _ ▸ (by simpa using hp)

theorem splitPath_snd_no_slash (p : List Char) : '/' ∉ (splitPath p).2 := by
  intro h
  rw [splitPath] at h
  simp only [List.mem_reverse] at h
  have := List.mem_takeWhile_imp h
  simp at this

theorem splitPath_fst_slash (p : List Char) :
    (splitPath p).1 = [] ∨ (splitPath p).1.getLast? = some '/' := by
  rw [splitPath]
  cases hd : List.dropWhile (fun c => decide (c ≠ '/')) p.reverse with
  | nil => simp [hd]
  | cons c t =>
    right
    have hc := dropWhile_head_false _ p.reverse c (by rw [hd]; rfl)
    simp only [decide_eq_false_iff_not, Decidable.not_not] at hc
    show ((c :: t).reverse).getLast? = some '/'
    rw [List.getLast?_reverse, List.head?_cons, hc]

theorem splitPath_append (d s : List Char) (hs : '/' ∉ s)
    (hd : d = [] ∨ d.getLast? = some '/') : splitPath (d ++ s) = (d, s) := by
  have hall : ∀ c ∈ s.reverse, (fun c => decide (c ≠ '/')) c = true := by
    intro c hc
    simp only [decide_eq_true_eq]
    intro he
    exact hs (he ▸ List.mem_reverse.mp hc)
  rw [splitPath, List.reverse_append]
  have htake : List.takeWhile (fun c => decide (c ≠ '/')) (s.reverse ++ d.reverse) =
      s.reverse := by
    rw [takeWhile_append_pos _ _ _ hall]
    rcases hd with rfl | hd
    · simp
    · cases hdr : d.reverse with
      | nil => simp
      | cons c t =>
        have hc : c = '/' := by
          have h3 := List.getLast?_reverse d.reverse
          rw [List.reverse_reverse, hdr] at h3
          rw [h3] at hd
          simpa using hd
        subst hc
        simp [List.takeWhile_cons]
  have hdrop : List.dropWhile (fun c => decide (c ≠ '/')) (s.reverse ++ d.reverse) =
      d.reverse := by
    rw [dropWhile_append_all _ _ _ hall]
    rcases hd with rfl | hd
    · simp
    · cases hdr : d.reverse with
      | nil => simp
      | cons c t =>
        have hc : c = '/' := by
          have h3 := List.getLast?_reverse d.reverse
          rw [List.reverse_reverse, hdr] at h3
          rw [h3] at hd
          simpa using hd
        subst hc
        simp [List.dropWhile_cons]
  rw [Prod.ext_iff]
  constructor
  · simp only [hdrop, List.reverse_reverse]
  · simp only [htake, List.reverse_reverse]

theorem pathStem_of_no_dot (b : List Char) (hb : '.' ∉ b.drop 1) :
    pathStem b = b := by
  rw [pathStem, if_neg]
  intro hc
  exact hb (List.mem_of_elem_eq_true hc)

theorem pathStem_subset (b : List Char) (c : Char) (h : c ∈ pathStem b) :
    c ∈ b := by
  rw [pathStem] at h
  split at h
  · simp only [List.mem_reverse] at h
    have h1 := (List.dropWhile_sublist (l := b.reverse)
      (p := fun c => decide (c ≠ '.'))).subset
    have h2 := (List.drop_sublist 1 (List.dropWhile (fun c => decide (c ≠ '.'))
      b.reverse)).subset
    exact List.mem_reverse.mp (h1 (h2 h))
  · exact h

/-! ### C6: missing input files -/

/-- C6: when the (quote-stripped) input path does not exist,
`transcribe_media` and `translate_file` both raise `FileNotFoundError`
immediately: the event trace is empty — no model load, no transcription,
no parse, no write — and no output path is produced. -/
theorem c6_missing_input :
    (∀ (fsExists : List Char → Bool) (modelLoaded loadOk : Bool)
        (tres : Option (List TextifierCore.Seg)) (p : List Char)
        (od : Option (List Char)) (fmt : Option String),
      fsExists (stripQuotes p) = false →
      TextifierCore.transcribe_media fsExists modelLoaded loadOk tres p od fmt =
        (Except.error (PyErr.fileNotFound (stripQuotes p)), [])) ∧
    (∀ (fs : List Char → Option (List Char)) (tr : List Char → List Char)
        (p tgt : List Char) (od : Option (List Char)),
      fs (stripQuotes p) = none →
      TextifierCore.translate_file fs tr p tgt od =
        (Except.error (PyErr.fileNotFound (stripQuotes p)), [])) := by
  constructor
  · intro fsExists modelLoaded loadOk tres p od fmt h
    simp [TextifierCore.transcribe_media, h]
  · intro fs tr p tgt od h
    simp [TextifierCore.translate_file, h]

/-- C6 witness: both operations on a filesystem with no files. -/
theorem c6_witness :
    (TextifierCore.transcribe_media (fun _ => false) true true none
        (lc "a.mp4") none none =
      (Except.error (PyErr.fileNotFound (stripQuotes (lc "a.mp4"))), [])) ∧
    (TextifierCore.translate_file (fun _ => none) id (lc "a.vtt") (lc "fr")
        none =
      (Except.error (PyErr.fileNotFound (stripQuotes (lc "a.vtt"))), [])) :=
  ⟨c6_missing_input.1 (fun _ => false) true true none (lc "a.mp4") none none
      rfl,
   c6_missing_input.2 (fun _ => none) id (lc "a.vtt") (lc "fr") none rfl⟩

/-! ### C8: translate_file touches only the text field -/

theorem map_trSeg_start (tr : List Char → List Char) (l : List Cue) :
    (l.map (TextifierCore.trSeg tr)).map Cue.start = l.map Cue.start := by
  induction l with
  | nil => rfl
  | cons c cs ih => simp [TextifierCore.trSeg, ih]

theorem map_trSeg_stop (tr : List Char → List Char) (l : List Cue) :
    (l.map (TextifierCore.trSeg tr)).map Cue.stop = l.map Cue.stop := by
  induction l with
  | nil => rfl
  | cons c cs ih => simp [TextifierCore.trSeg, ih]

theorem map_trSeg_text (tr : List Char → List Char) (l : List Cue) :
    (l.map (TextifierCore.trSeg tr)).map Cue.text =
      l.map (fun c => tr c.text) := by
  induction l with
  | nil => rfl
  | cons c cs ih => simp [TextifierCore.trSeg, ih]

/-- C8: for every input file of a cue-bearing extension, `translate_file`
writes back the parsed segment list with only the `text` field replaced
by its translation: the written data's start and end timestamp strings,
and the order of segments, are exactly those parsed from the input, and
the single write uses the matching serializer. -/
theorem c8_timestamps_preserved (fs : List Char → Option (List Char))
    (tr : List Char → List Char) (p tgt : List Char)
    (od : Option (List Char)) (content : List Char)
    (hfs : fs (stripQuotes p) = some content) :
    ((pathSuffix (splitPath (stripQuotes p)).2).map Char.toLower = lc ".vtt" →
      ∃ outP, TextifierCore.translate_file fs tr p tgt od =
        (Except.ok outP,
         [TextifierCore.FSEvent.write outP (FormatHandler.save_vtt_from_data
            ((FormatHandler.parse_vtt content).map (TextifierCore.trSeg tr)))]) ∧
      ((FormatHandler.parse_vtt content).map (TextifierCore.trSeg tr)).map
          Cue.start = (FormatHandler.parse_vtt content).map Cue.start ∧
      ((FormatHandler.parse_vtt content).map (TextifierCore.trSeg tr)).map
          Cue.stop = (FormatHandler.parse_vtt content).map Cue.stop ∧
      ((FormatHandler.parse_vtt content).map (TextifierCore.trSeg tr)).map
          Cue.text = (FormatHandler.parse_vtt content).map
            (fun c => tr c.text)) ∧
    ((pathSuffix (splitPath (stripQuotes p)).2).map Char.toLower = lc ".srt" →
      ∃ outP, TextifierCore.translate_file fs tr p tgt od =
        (Except.ok outP,
         [TextifierCore.FSEvent.write outP (FormatHandler.save_srt_from_data
            ((FormatHandler.parse_srt content).map (TextifierCore.trSeg tr)))]) ∧
      ((FormatHandler.parse_srt content).map (TextifierCore.trSeg tr)).map
          Cue.start = (FormatHandler.parse_srt content).map Cue.start ∧
      ((FormatHandler.parse_srt content).map (TextifierCore.trSeg tr)).map
          Cue.stop = (FormatHandler.parse_srt content).map Cue.stop ∧
      ((FormatHandler.parse_srt content).map (TextifierCore.trSeg tr)).map
          Cue.text = (FormatHandler.parse_srt content).map
            (fun c => tr c.text)) ∧
    ((pathSuffix (splitPath (stripQuotes p)).2).map Char.toLower = lc ".csv" →
      ∃ outP, TextifierCore.translate_file fs tr p tgt od =
        (Except.ok outP,
         [TextifierCore.FSEvent.write outP (FormatHandler.save_csv_from_data
            ((FormatHandler.parse_csv content).map (TextifierCore.trSeg tr)))]) ∧
      ((FormatHandler.parse_csv content).map (TextifierCore.trSeg tr)).map
          Cue.start = (FormatHandler.parse_csv content).map Cue.start ∧
      ((FormatHandler.parse_csv content).map (TextifierCore.trSeg tr)).map
          Cue.stop = (FormatHandler.parse_csv content).map Cue.stop ∧
      ((FormatHandler.parse_csv content).map (TextifierCore.trSeg tr)).map
          Cue.text = (FormatHandler.parse_csv content).map
            (fun c => tr c.text)) := by
  refine ⟨?_, ?_, ?_⟩
  · intro hext
    refine ⟨outBase od (stripQuotes p)
      (pathStem (splitPath (stripQuotes p)).2 ++ lc "_" ++ tgt ++ lc ".vtt"),
      ?_, map_trSeg_start _ _, map_trSeg_stop _ _, map_trSeg_text _ _⟩
    simp [TextifierCore.translate_file, hfs, hext]
  · intro hext
    refine ⟨outBase od (stripQuotes p)
      (pathStem (splitPath (stripQuotes p)).2 ++ lc "_" ++ tgt ++ lc ".srt"),
      ?_, map_trSeg_start _ _, map_trSeg_stop _ _, map_trSeg_text _ _⟩
    rw [TextifierCore.translate_file]
    simp only [hfs, hext]
    rw [if_neg (show ¬ lc ".srt" = lc ".vtt" by decide)]
    simp
  · intro hext
    refine ⟨outBase od (stripQuotes p)
      (pathStem (splitPath (stripQuotes p)).2 ++ lc "_" ++ tgt ++ lc ".csv"),
      ?_, map_trSeg_start _ _, map_trSeg_stop _ _, map_trSeg_text _ _⟩
    rw [TextifierCore.translate_file]
    simp only [hfs, hext]
    rw [if_neg (show ¬ lc ".csv" = lc ".vtt" by decide),
      if_neg (show ¬ lc ".csv" = lc ".srt" by decide)]
    simp

/-- C8 witness: a one-cue VTT file with an appending translator. -/
theorem c8_witness :
    (fun (_ : List Char) =>
        some (lc "WEBVTT\n\n1\n00:00:01.000 --> 00:00:02.000\nhi\n\n"))
      (stripQuotes (lc "d/a.vtt")) =
      some (lc "WEBVTT\n\n1\n00:00:01.000 --> 00:00:02.000\nhi\n\n") ∧
    ((pathSuffix (splitPath (stripQuotes (lc "d/a.vtt"))).2).map Char.toLower =
      lc ".vtt" →
      ∃ outP, TextifierCore.translate_file
          (fun _ =>
            some (lc "WEBVTT\n\n1\n00:00:01.000 --> 00:00:02.000\nhi\n\n"))
          (fun t => t ++ lc "!") (lc "d/a.vtt") (lc "fr") none =
        (Except.ok outP,
         [TextifierCore.FSEvent.write outP (FormatHandler.save_vtt_from_data
            ((FormatHandler.parse_vtt
                (lc "WEBVTT\n\n1\n00:00:01.000 --> 00:00:02.000\nhi\n\n")).map
              (TextifierCore.trSeg (fun t => t ++ lc "!"))))]) ∧
      ((FormatHandler.parse_vtt
          (lc "WEBVTT\n\n1\n00:00:01.000 --> 00:00:02.000\nhi\n\n")).map
            (TextifierCore.trSeg (fun t => t ++ lc "!"))).map Cue.start =
        (FormatHandler.parse_vtt
          (lc "WEBVTT\n\n1\n00:00:01.000 --> 00:00:02.000\nhi\n\n")).map
            Cue.start ∧
      ((FormatHandler.parse_vtt
          (lc "WEBVTT\n\n1\n00:00:01.000 --> 00:00:02.000\nhi\n\n")).map
            (TextifierCore.trSeg (fun t => t ++ lc "!"))).map Cue.stop =
        (FormatHandler.parse_vtt
          (lc "WEBVTT\n\n1\n00:00:01.000 --> 00:00:02.000\nhi\n\n")).map
            Cue.stop ∧
      ((FormatHandler.parse_vtt
          (lc "WEBVTT\n\n1\n00:00:01.000 --> 00:00:02.000\nhi\n\n")).map
            (TextifierCore.trSeg (fun t => t ++ lc "!"))).map Cue.text =
        (FormatHandler.parse_vtt
          (lc "WEBVTT\n\n1\n00:00:01.000 --> 00:00:02.000\nhi\n\n")).map
            (fun c => (fun t => t ++ lc "!") c.text)) :=
  ⟨rfl, (c8_timestamps_preserved
    (fun _ => some (lc "WEBVTT\n\n1\n00:00:01.000 --> 00:00:02.000\nhi\n\n"))
    (fun t => t ++ lc "!") (lc "d/a.vtt") (lc "fr") none
    (lc "WEBVTT\n\n1\n00:00:01.000 --> 00:00:02.000\nhi\n\n") rfl).1⟩

/-! ### C9: transcribe_media writes all four formats -/

/-- C9 counterexample: for an input whose stem itself contains a dot
(`movie.v2.mp4`, stem `movie.v2`), `Path.with_suffix` on the stem-based
output path replaces `.v2`, so the four files are named `movie.*` and do
not share the input file's stem. -/
theorem c9_counterexample :
    (TextifierCore.transcribe_media (fun _ => true) true true
        (some [⟨0, 1500, lc "hi"⟩]) (lc "d/movie.v2.mp4") none none).1 =
      Except.ok (some [lc "d/movie.vtt", lc "d/movie.srt", lc "d/movie.txt",
        lc "d/movie.csv"]) ∧
    pathStem (splitPath (lc "d/movie.vtt")).2 ≠
      pathStem (splitPath (lc "d/movie.v2.mp4")).2 := by
  constructor
  · rfl
  · decide

/-- C9 (amended to dot-free stems): whenever the transcription completes
with a segment list, `transcribe_media` ignores the requested output
format, writes exactly four files — the stem-based output path with the
extensions `.vtt`, `.srt`, `.txt`, `.csv` — returning their paths in
that order, and the VTT content starts with the `WEBVTT` header line.
When the input stem contains a dot, `with_suffix` instead replaces the
stem's last dot segment (the counterexample). -/
theorem c9_all_formats (fsExists : List Char → Bool)
    (modelLoaded loadOk : Bool) (segs : List TextifierCore.Seg)
    (p : List Char) (od : Option (List Char)) (fmt : Option String)
    (hfs : fsExists (stripQuotes p) = true)
    (hload : modelLoaded = true ∨ loadOk = true)
    (hstem : '.' ∉ pathStem (splitPath (stripQuotes p)).2) :
    (TextifierCore.transcribe_media fsExists modelLoaded loadOk (some segs)
        p od fmt).1 =
      Except.ok (some
        [outBase od (stripQuotes p) (pathStem (splitPath (stripQuotes p)).2)
          ++ lc ".vtt",
         outBase od (stripQuotes p) (pathStem (splitPath (stripQuotes p)).2)
          ++ lc ".srt",
         outBase od (stripQuotes p) (pathStem (splitPath (stripQuotes p)).2)
          ++ lc ".txt",
         outBase od (stripQuotes p) (pathStem (splitPath (stripQuotes p)).2)
          ++ lc ".csv"]) ∧
    (∃ evs0, (TextifierCore.transcribe_media fsExists modelLoaded loadOk
        (some segs) p od fmt).2 =
      evs0 ++
        [TextifierCore.FSEvent.write
          (outBase od (stripQuotes p) (pathStem (splitPath (stripQuotes p)).2)
            ++ lc ".vtt") (TextifierCore.save_vtt segs),
         TextifierCore.FSEvent.write
          (outBase od (stripQuotes p) (pathStem (splitPath (stripQuotes p)).2)
            ++ lc ".srt") (TextifierCore.save_srt segs),
         TextifierCore.FSEvent.write
          (outBase od (stripQuotes p) (pathStem (splitPath (stripQuotes p)).2)
            ++ lc ".txt") (TextifierCore.save_txt segs),
         TextifierCore.FSEvent.write
          (outBase od (stripQuotes p) (pathStem (splitPath (stripQuotes p)).2)
            ++ lc ".csv") (TextifierCore.save_csv segs)] ∧
      ∀ e ∈ evs0, e = TextifierCore.FSEvent.loadModel ∨
        e = TextifierCore.FSEvent.transcribeCall) ∧
    (∃ rest, TextifierCore.save_vtt segs = lc "WEBVTT\n" ++ rest) ∧
    TextifierCore.transcribe_media fsExists modelLoaded loadOk (some segs)
        p od fmt =
      TextifierCore.transcribe_media fsExists modelLoaded loadOk (some segs)
        p od none := by
  have hsl : '/' ∉ pathStem (splitPath (stripQuotes p)).2 := fun hm =>
    splitPath_snd_no_slash (stripQuotes p) (pathStem_subset _ _ hm)
  have hsplit : splitPath (outBase od (stripQuotes p)
      (pathStem (splitPath (stripQuotes p)).2)) =
      ((match od with
        | some d => d ++ lc "/"
        | none => (splitPath (stripQuotes p)).1),
       pathStem (splitPath (stripQuotes p)).2) := by
    cases od with
    | none =>
      exact splitPath_append _ _ hsl (splitPath_fst_slash (stripQuotes p))
    | some d =>
      refine splitPath_append _ _ hsl (Or.inr ?_)
      rw [List.getLast?_append_of_ne_nil d (by simp [lc])]
      rfl
  have hstem2 : pathStem (pathStem (splitPath (stripQuotes p)).2) =
      pathStem (splitPath (stripQuotes p)).2 :=
    pathStem_of_no_dot _ (fun hc => hstem (List.mem_of_mem_drop hc))
  have hws : ∀ ext, withSuffix (outBase od (stripQuotes p)
      (pathStem (splitPath (stripQuotes p)).2)) ext =
      outBase od (stripQuotes p) (pathStem (splitPath (stripQuotes p)).2)
        ++ ext := by
    intro ext
    rw [withSuffix, hsplit]
    simp only [hstem2]
    cases od with
    | none => simp [outBase, List.append_assoc]
    | some d => simp [outBase, List.append_assoc]
  have hvtt : ∃ rest, TextifierCore.save_vtt segs = lc "WEBVTT\n" ++ rest := by
    refine ⟨lc "\n" ++ TextifierCore.segBlocksFrom
      FormatHandler.format_vtt_time 1 segs, ?_⟩
    rw [TextifierCore.save_vtt]
    rw [show lc "WEBVTT\n\n" = lc "WEBVTT\n" ++ lc "\n" from rfl,
      List.append_assoc]
  cases modelLoaded with
  | true =>
    refine ⟨?_, ⟨[TextifierCore.FSEvent.transcribeCall], ?_, ?_⟩, hvtt, rfl⟩
    · simp [TextifierCore.transcribe_media, hfs, hws]
    · simp [TextifierCore.transcribe_media, hfs, hws]
    · intro e he
      simp at he
      simp [he]
  | false =>
    have hlo : loadOk = true := by
      rcases hload with h | h
      · cases h
      · exact h
    subst hlo
    refine ⟨?_, ⟨[TextifierCore.FSEvent.loadModel,
      TextifierCore.FSEvent.transcribeCall], ?_, ?_⟩, hvtt, rfl⟩
    · simp [TextifierCore.transcribe_media, hfs, hws]
    · simp [TextifierCore.transcribe_media, hfs, hws]
    · intro e he
      simp at he
      rcases he with rfl | rfl
      · exact Or.inl rfl
      · exact Or.inr rfl

/-- C9 witness: a loaded model, one segment, input `d/movie.mp4`. -/
theorem c9_witness :
    (fun (_ : List Char) => true) (stripQuotes (lc "d/movie.mp4")) = true ∧
    (true = true ∨ true = true) ∧
    '.' ∉ pathStem (splitPath (stripQuotes (lc "d/movie.mp4"))).2 ∧
    ((TextifierCore.transcribe_media (fun _ => true) true true
        (some [⟨0, 1500, lc "hi"⟩]) (lc "d/movie.mp4") none
        (some "txt")).1 =
      Except.ok (some
        [outBase none (stripQuotes (lc "d/movie.mp4"))
          (pathStem (splitPath (stripQuotes (lc "d/movie.mp4"))).2)
          ++ lc ".vtt",
         outBase none (stripQuotes (lc "d/movie.mp4"))
          (pathStem (splitPath (stripQuotes (lc "d/movie.mp4"))).2)
          ++ lc ".srt",
         outBase none (stripQuotes (lc "d/movie.mp4"))
          (pathStem (splitPath (stripQuotes (lc "d/movie.mp4"))).2)
          ++ lc ".txt",
         outBase none (stripQuotes (lc "d/movie.mp4"))
          (pathStem (splitPath (stripQuotes (lc "d/movie.mp4"))).2)
          ++ lc ".csv"])) := by
  refine ⟨rfl, Or.inl rfl, by decide, ?_⟩
  exact (c9_all_formats (fun _ => true) true true [⟨0, 1500, lc "hi"⟩]
    (lc "d/movie.mp4") none (some "txt") rfl (Or.inl rfl) (by decide)).1

/-! ### C4: blocks without a recognized timestamp line -/

theorem containsSub_nil_pat (s : List Char) : containsSub [] s = true := by
  cases s <;> simp [containsSub, hasPre]

theorem hasPre_extend (pat a b : List Char) (h : hasPre pat a = true) :
    hasPre pat (a ++ b) = true := by
  induction pat generalizing a with
  | nil => rfl
  | cons p ps ih =>
    cases a with
    | nil => simp [hasPre] at h
    | cons c cs =>
      simp only [hasPre, Bool.and_eq_true] at h ⊢
      exact ⟨h.1, ih cs h.2⟩

theorem containsSub_append_right (pat a b : List Char)
    (h : containsSub pat a = true) : containsSub pat (a ++ b) = true := by
  induction a with
  | nil =>
    have : pat = [] := by
      cases pat with
      | nil => rfl
      | cons p ps => simp [containsSub, hasPre] at h
    subst this
    exact containsSub_nil_pat b
  | cons c cs ih =>
    simp only [containsSub, Bool.or_eq_true] at h
    simp only [List.cons_append, containsSub, Bool.or_eq_true]
    rcases h with h | h
    · exact Or.inl (by simpa using hasPre_extend pat (c :: cs) b h)
    · exact Or.inr (ih h)

theorem containsSub_append_left (pat a b : List Char)
    (h : containsSub pat b = true) : containsSub pat (a ++ b) = true := by
  induction a with
  | nil => exact h
  | cons c cs ih => simp [containsSub, ih]

theorem containsSub_pyStrip (pat b : List Char)
    (h : containsSub pat (pyStrip b) = true) : containsSub pat b = true := by
  have hb : b = List.takeWhile pyWs b ++
      ((pyStrip b) ++ ((List.takeWhile pyWs (b.dropWhile pyWs).reverse).reverse)) := by
    rw [pyStrip]
    conv_lhs => rw [← List.takeWhile_append_dropWhile (p := pyWs) (l := b)]
    congr 1
    conv_lhs => rw [← List.reverse_reverse (List.dropWhile pyWs b)]
    conv_lhs => rw [← List.takeWhile_append_dropWhile (p := pyWs)
      (l := (List.dropWhile pyWs b).reverse)]
    rw [List.reverse_append]
  rw [hb]
  exact containsSub_append_left _ _ _ (containsSub_append_right _ _ _ h)

theorem mem_splitNl_sub (s l : List Char) (hl : l ∈ splitNl s)
    (pat : List Char) (h : containsSub pat l = true) :
    containsSub pat s = true := by
  induction s generalizing l with
  | nil =>
    simp only [splitNl, List.mem_singleton] at hl
    subst hl
    exact h
  | cons c rest ih =>
    by_cases hc : c = '\n'
    · subst hc
      rw [show splitNl ('\n' :: rest) = [] :: splitNl rest from rfl] at hl
      rcases List.mem_cons.mp hl with rfl | hl
      · have : pat = [] := by
          cases pat with
          | nil => rfl
          | cons p ps => simp [containsSub, hasPre] at h
        subst this
        exact containsSub_nil_pat _
      · simp [containsSub, ih l hl h]
    · rw [splitNl_cons c rest hc] at hl
      cases hsp : splitNl rest with
      | nil => exact absurd hsp (splitNl_ne_nil rest)
      | cons h0 t =>
        rw [hsp] at hl
        simp only [consTo, List.mem_cons] at hl
        rcases hl with rfl | hl
        · have hrest : rest = h0 ++ joinNl ([] :: t) ∨ rest = h0 := by
            have hj := joinNl_splitNl rest
            rw [hsp] at hj
            cases t with
            | nil => exact Or.inr (by simpa [joinNl] using hj.symm)
            | cons x xs =>
              left
              rw [← hj]
              simp [joinNl]
          rcases hrest with hrest | hrest
          · rw [hrest, show c :: (h0 ++ joinNl ([] :: t)) =
              (c :: h0) ++ joinNl ([] :: t) from rfl]
            exact containsSub_append_right _ _ _ h
          · rw [hrest]
            exact h
        · have := ih _ (hsp ▸ List.mem_cons_of_mem h0 hl) h
          simp [containsSub, this]

theorem findIdx?_none_of_all {α : Type} (p : α → Bool) (l : List α)
    (h : ∀ a ∈ l, p a = false) : ∀ i, List.findIdx? p l i = none := by
  induction l with
  | nil => intro i; rfl
  | cons a t ih =>
    intro i
    rw [List.findIdx?_cons]
    rw [h a (List.mem_cons_self a t)]
    simp only [Bool.false_eq_true, if_false]
    exact ih (fun x hx => h x (List.mem_cons_of_mem a hx)) (i + 1)

theorem vttBlockCues_no_arrow (b : List Char)
    (h : containsSub (lc " --> ") b = false) :
    FormatHandler.vttBlockCues b = [] := by
  rw [FormatHandler.vttBlockCues]
  have hall : ∀ l ∈ splitNl (pyStrip b), containsSub (lc " --> ") l = false := by
    intro l hl
    cases hc : containsSub (lc " --> ") l
    · rfl
    · exact absurd (containsSub_pyStrip _ _ (mem_splitNl_sub _ _ hl _ hc)) (by
        rw [h]; simp)
  cases hsp : splitNl (pyStrip b) with
  | nil => simp
  | cons l0 t =>
    simp only []
    split
    · rfl
    · have hnone := findIdx?_none_of_all (fun l => containsSub (lc " --> ") l)
        (l0 :: t) (by rw [← hsp]; exact hall) 0
      rw [hnone]

theorem uninl_cr (rest : List Char) (h : rest.head? ≠ some '\n') :
    uninl ('\r' :: rest) = '\n' :: uninl rest := by
  rw [uninl.eq_def]
  split
  · simp_all
  · rename_i heq
    injection heq with h1 h2
    subst h2
    simp at h
  · rename_i heq
    injection heq with h1 h2
    subst h2
    rfl
  · rename_i hne heq
    injection heq with h1 h2
    exact absurd h1.symm (by simpa using hne)

theorem containsSub_cons_of (pat : List Char) (c : Char) (s : List Char)
    (h : containsSub pat s = true) : containsSub pat (c :: s) = true := by
  simp [containsSub, h]

theorem hasPre_nl_false (pat : List Char) (hpn : '\n' ∉ pat) (hne : pat ≠ [])
    (x : List Char) : hasPre pat ('\n' :: x) = false := by
  cases pat with
  | nil => exact absurd rfl hne
  | cons p ps =>
    simp only [hasPre, Bool.and_eq_false_iff]
    left
    simp only [decide_eq_false_iff_not]
    intro hp
    exact hpn (hp ▸ List.mem_cons_self p ps)

theorem hasPre_uninl (pat : List Char) (hpn : '\n' ∉ pat) :
    ∀ c : List Char, hasPre pat (uninl c) = true → hasPre pat c = true := by
  induction pat with
  | nil => intro c _; rfl
  | cons p ps ih =>
    intro c h
    cases c with
    | nil => simp [uninl, hasPre] at h
    | cons a r =>
      by_cases har : a = '\r'
      · subst har
        exfalso
        have hp : p = '\n' := by
          cases r with
          | nil =>
            have h' : p = '\n' ∧ hasPre ps [] = true := by
              simpa [uninl, hasPre] using h
            exact h'.1
          | cons b r2 =>
            by_cases hb : b = '\n'
            · subst hb
              have h' : p = '\n' ∧ hasPre ps (uninl r2) = true := by
                simpa [uninl, hasPre] using h
              exact h'.1
            · rw [uninl_cr (b :: r2) (by simpa using hb)] at h
              simp only [hasPre, Bool.and_eq_true, decide_eq_true_eq] at h
              exact h.1
        exact hpn (hp ▸ List.mem_cons_self p ps)
      · rw [uninl_cons a r har] at h
        simp only [hasPre, Bool.and_eq_true, decide_eq_true_eq] at h ⊢
        refine ⟨h.1, ih (fun hm => hpn (List.mem_cons_of_mem p hm)) r h.2⟩

theorem containsSub_uninl (pat : List Char) (hpn : '\n' ∉ pat) :
    ∀ c : List Char, containsSub pat (uninl c) = true →
      containsSub pat c = true := by
  have main : ∀ n : Nat, ∀ c : List Char, c.length ≤ n →
      containsSub pat (uninl c) = true → containsSub pat c = true := by
    intro n
    induction n with
    | zero =>
      intro c hc h
      cases c with
      | nil => simpa [uninl] using h
      | cons a r => simp at hc
    | succ n ih =>
      intro c hc h
      by_cases hnil : pat = []
      · subst hnil
        exact containsSub_nil_pat c
      · cases c with
        | nil => simpa [uninl] using h
        | cons a r =>
          by_cases har : a = '\r'
          · subst har
            cases r with
            | nil =>
              exfalso
              have h2 : hasPre pat ['\n'] = true ∨ hasPre pat [] = true := by
                simpa [uninl, containsSub] using h
              rcases h2 with h2 | h2
              · rw [hasPre_nl_false pat hpn hnil []] at h2
                cases h2
              · cases pat with
                | nil => exact hnil rfl
                | cons p ps => simp [hasPre] at h2
            | cons b r2 =>
              by_cases hb : b = '\n'
              · subst hb
                have h2 : hasPre pat ('\n' :: uninl r2) = true ∨
                    containsSub pat (uninl r2) = true := by
                  simpa [uninl, containsSub] using h
                rcases h2 with h2 | h2
                · rw [hasPre_nl_false pat hpn hnil _] at h2
                  cases h2
                · have hlen : r2.length ≤ n := by
                    simp only [List.length_cons] at hc
                    omega
                  exact containsSub_cons_of _ _ _ (containsSub_cons_of _ _ _
                    (ih r2 hlen h2))
              · rw [uninl_cr (b :: r2) (by simpa using hb)] at h
                have h2 : hasPre pat ('\n' :: uninl (b :: r2)) = true ∨
                    containsSub pat (uninl (b :: r2)) = true := by
                  simpa [containsSub] using h
                rcases h2 with h2 | h2
                · rw [hasPre_nl_false pat hpn hnil _] at h2
                  cases h2
                · have hlen : (b :: r2).length ≤ n := by
                    simp only [List.length_cons] at hc
                    simp only [List.length_cons]
                    omega
                  exact containsSub_cons_of _ _ _ (ih (b :: r2) hlen h2)
          · rw [uninl_cons a r har] at h
            have h2 : hasPre pat (a :: uninl r) = true ∨
                containsSub pat (uninl r) = true := by
              simpa [containsSub] using h
            rcases h2 with h2 | h2
            · have hpre : hasPre pat (a :: r) = true := by
                cases pat with
                | nil => rfl
                | cons p ps =>
                  simp only [hasPre, Bool.and_eq_true, decide_eq_true_eq]
                    at h2 ⊢
                  refine ⟨h2.1, hasPre_uninl ps ?_ r h2.2⟩
                  exact fun hm => hpn (List.mem_cons_of_mem p hm)
              exact containsSub_of_hasPre _ _ hpre
            · have hlen : r.length ≤ n := by
                simp only [List.length_cons] at hc
                omega
              exact containsSub_cons_of _ _ _ (ih r hlen h2)
  intro c
  exact main c.length c (Nat.le_refl _)


theorem split2nl_ne_nil (s : List Char) : split2nl s ≠ [] := by
  have main : ∀ n : Nat, ∀ s : List Char, s.length ≤ n → split2nl s ≠ [] := by
    intro n
    induction n with
    | zero =>
      intro s hs
      cases s with
      | nil => simp [split2nl]
      | cons a r => simp at hs
    | succ n ih =>
      intro s hs
      cases s with
      | nil => simp [split2nl]
      | cons c rest =>
        by_cases hnn : c = '\n' ∧ rest.head? = some '\n'
        · obtain ⟨rfl, hh⟩ := hnn
          cases rest with
          | nil => simp at hh
          | cons c1 rest2 =>
            have hc1 : c1 = '\n' := by simpa using hh
            subst hc1
            rw [show split2nl ('\n' :: '\n' :: rest2) =
              [] :: split2nl rest2 from rfl]
            simp
        · have hbr : c ≠ '\n' ∨ rest.head? ≠ some '\n' := by
            by_cases h1 : c = '\n'
            · exact Or.inr fun h2 => hnn ⟨h1, h2⟩
            · exact Or.inl h1
          rw [split2nl_cons c rest hbr]
          cases hsp : split2nl rest with
          | nil =>
            exact absurd hsp (ih rest (by simp only [List.length_cons] at hs; omega))
          | cons h0 t => simp [consTo]
  exact main s.length s (Nat.le_refl _)

theorem join2nl_split2nl (s : List Char) : join2nl (split2nl s) = s := by
  have main : ∀ n : Nat, ∀ s : List Char, s.length ≤ n →
      join2nl (split2nl s) = s := by
    intro n
    induction n with
    | zero =>
      intro s hs
      cases s with
      | nil => rfl
      | cons a r => simp at hs
    | succ n ih =>
      intro s hs
      cases s with
      | nil => rfl
      | cons c rest =>
        by_cases hnn : c = '\n' ∧ rest.head? = some '\n'
        · obtain ⟨rfl, hh⟩ := hnn
          cases rest with
          | nil => simp at hh
          | cons c1 rest2 =>
            have hc1 : c1 = '\n' := by simpa using hh
            subst hc1
            rw [show split2nl ('\n' :: '\n' :: rest2) =
              [] :: split2nl rest2 from rfl]
            have hrec := ih rest2 (by simp only [List.length_cons] at hs; omega)
            cases hsp : split2nl rest2 with
            | nil => exact absurd hsp (split2nl_ne_nil rest2)
            | cons h0 t =>
              rw [hsp] at hrec
              simp [join2nl, hrec]
        · have hbr : c ≠ '\n' ∨ rest.head? ≠ some '\n' := by
            by_cases h1 : c = '\n'
            · exact Or.inr fun h2 => hnn ⟨h1, h2⟩
            · exact Or.inl h1
          rw [split2nl_cons c rest hbr]
          have hrec := ih rest (by simp only [List.length_cons] at hs; omega)
          cases hsp : split2nl rest with
          | nil => exact absurd hsp (split2nl_ne_nil rest)
          | cons h0 t =>
            rw [hsp] at hrec
            cases t with
            | nil =>
              simp only [consTo, join2nl]
              simp [join2nl] at hrec
              simp [hrec]
            | cons x xs =>
              simp only [consTo, join2nl]
              simp [join2nl] at hrec
              simp [← List.cons_append, hrec]
  exact main s.length s (Nat.le_refl _)

theorem mem_split2nl_sub (s b : List Char) (hb : b ∈ split2nl s)
    (pat : List Char) (h : containsSub pat b = true) :
    containsSub pat s = true := by
  have main : ∀ n : Nat, ∀ s b : List Char, s.length ≤ n → b ∈ split2nl s →
      containsSub pat b = true → containsSub pat s = true := by
    intro n
    induction n with
    | zero =>
      intro s b hs hb hcb
      cases s with
      | nil =>
        simp only [split2nl, List.mem_singleton] at hb
        subst hb
        exact hcb
      | cons a r => simp at hs
    | succ n ih =>
      intro s b hs hb hcb
      cases s with
      | nil =>
        simp only [split2nl, List.mem_singleton] at hb
        subst hb
        exact hcb
      | cons c rest =>
        by_cases hnn : c = '\n' ∧ rest.head? = some '\n'
        · obtain ⟨rfl, hh⟩ := hnn
          cases rest with
          | nil => simp at hh
          | cons c1 rest2 =>
            have hc1 : c1 = '\n' := by simpa using hh
            subst hc1
            rw [show split2nl ('\n' :: '\n' :: rest2) =
              [] :: split2nl rest2 from rfl] at hb
            rcases List.mem_cons.mp hb with rfl | hb
            · have hp : pat = [] := by
                cases pat with
                | nil => rfl
                | cons p ps => simp [containsSub, hasPre] at hcb
              subst hp
              exact containsSub_nil_pat _
            · exact containsSub_cons_of _ _ _ (containsSub_cons_of _ _ _
                (ih rest2 b (by simp only [List.length_cons] at hs; omega)
                  hb hcb))
        · have hbr : c ≠ '\n' ∨ rest.head? ≠ some '\n' := by
            by_cases h1 : c = '\n'
            · exact Or.inr fun h2 => hnn ⟨h1, h2⟩
            · exact Or.inl h1
          rw [split2nl_cons c rest hbr] at hb
          cases hsp : split2nl rest with
          | nil => exact absurd hsp (split2nl_ne_nil rest)
          | cons h0 t =>
            rw [hsp] at hb
            simp only [consTo, List.mem_cons] at hb
            rcases hb with rfl | hb
            · have hrest : rest = h0 ++ join2nl ([] :: t) ∨ rest = h0 := by
                have hj := join2nl_split2nl rest
                rw [hsp] at hj
                cases t with
                | nil => exact Or.inr (by simpa [join2nl] using hj.symm)
                | cons x xs =>
                  left
                  rw [← hj]
                  simp [join2nl]
              rcases hrest with hrest | hrest
              · rw [hrest, show c :: (h0 ++ join2nl ([] :: t)) =
                  (c :: h0) ++ join2nl ([] :: t) from rfl]
                exact containsSub_append_right _ _ _ hcb
              · rw [hrest]
                exact hcb
            · exact containsSub_cons_of _ _ _
                (ih rest b (by simp only [List.length_cons] at hs; omega)
                  (hsp ▸ List.mem_cons_of_mem h0 hb) hcb)
  exact main s.length s b (Nat.le_refl _) hb h

theorem vp_fold_invariant (lines : List (List Char))
    (h : ∀ l ∈ lines, VTTProcessor.timeSearch (pyStrip l) = none) :
    ∀ st : VTTProcessor.VPState, (lines.foldl VTTProcessor.vpStep st).cur_start
        = st.cur_start ∧
      (lines.foldl VTTProcessor.vpStep st).blocks = st.blocks := by
  induction lines with
  | nil => intro st; exact ⟨rfl, rfl⟩
  | cons l ls ih =>
    intro st
    have hts := h l (List.mem_cons_self l ls)
    have hstep : (VTTProcessor.vpStep st l).cur_start = st.cur_start ∧
        (VTTProcessor.vpStep st l).blocks = st.blocks := by
      rw [VTTProcessor.vpStep]
      by_cases h1 : pyStrip l = []
      · simp [h1]
      · by_cases h2 : pyStrip l = lc "WEBVTT"
        · simp [h1, h2]
        · by_cases h3 : (pyStrip l).all Char.isDigit
          · simp [h1, h2, h3]
          · simp [h1, h2, h3, hts]
    rw [List.foldl_cons]
    have hrec := ih (fun x hx => h x (List.mem_cons_of_mem _ hx))
      (VTTProcessor.vpStep st l)
    exact ⟨hrec.1.trans hstep.1, hrec.2.trans hstep.2⟩

/-- C4: (i) a file with no ` --> ` separator anywhere — every timestamp
line in an unrecognized format — parses to the empty cue list in
`parse_vtt`; (ii) a file none of whose lines matches the
`dd:dd:dd.ddd --> dd:dd:dd.ddd` pattern parses to the empty block list
in `VTTProcessor.parse`; (iii) a block with no recognized timestamp line
contributes no cue and is skipped silently: the rest of the file parses
exactly as it would alone. -/
theorem c4_unrecognized_timestamps :
    (∀ content : List Char, containsSub (lc " --> ") content = false →
      FormatHandler.parse_vtt content = []) ∧
    (∀ content : List Char,
      (∀ l ∈ FormatHandler.pySplitlines (uninl content),
        VTTProcessor.timeSearch (pyStrip l) = none) →
      VTTProcessor.parse content = []) ∧
    (∀ junk rest : List Char, '\r' ∉ junk →
      containsSub (lc "\n\n") junk = false →
      containsSub (lc " --> ") junk = false →
      junk.getLast? ≠ some '\n' →
      FormatHandler.parse_vtt (junk ++ lc "\n\n" ++ rest) =
        FormatHandler.parse_vtt rest) := by
  refine ⟨?_, ?_, ?_⟩
  · intro content h
    rw [FormatHandler.parse_vtt]
    have hblocks : ∀ b ∈ split2nl (uninl content),
        FormatHandler.vttBlockCues b = [] := by
      intro b hb
      refine vttBlockCues_no_arrow b ?_
      cases hc : containsSub (lc " --> ") b
      · rfl
      · exact absurd (containsSub_uninl (lc " --> ") (by decide) content
          (mem_split2nl_sub _ _ hb _ hc)) (by rw [h]; simp)
    rw [List.flatten_eq_nil_iff]
    intro l hl
    obtain ⟨b, hb, rfl⟩ := List.mem_map.mp hl
    exact hblocks b hb
  · intro content h
    rw [VTTProcessor.parse]
    have hinv := vp_fold_invariant _ h ⟨none, none, [], []⟩
    simp only [hinv.1, hinv.2]
    simp
  · intro junk rest hcr h2nl harrow hlast
    have hsteps : junk ++ lc "\n\n" ++ rest = junk ++ ('\n' :: '\n' :: rest) := by
      rw [List.append_assoc]
      rfl
    rw [FormatHandler.parse_vtt, hsteps,
      uninl_append_no_cr _ _ hcr,
      uninl_cons '\n' _ (by decide), uninl_cons '\n' _ (by decide),
      split2nl_append _ _ h2nl hlast]
    simp only [List.map_cons, List.flatten_cons,
      vttBlockCues_no_arrow junk harrow, List.nil_append]
    rfl

/-- C4 witness: the three parts at an SRT-like comma-timestamp file, a
bracket-timestamp file, and a comment block prefix. -/
theorem c4_witness :
    FormatHandler.parse_vtt (lc "1\n[00:00] hello\n\n2\n[00:05] there\n") = [] ∧
    VTTProcessor.parse
      (lc "WEBVTT\n\n1\n00:00:01,000 --> 00:00:02,000\nsrt style\n") = [] ∧
    FormatHandler.parse_vtt (lc "NOTE a comment" ++ lc "\n\n" ++
        lc "WEBVTT\n\n1\n00:00:01.000 --> 00:00:02.000\nhi\n\n") =
      FormatHandler.parse_vtt
        (lc "WEBVTT\n\n1\n00:00:01.000 --> 00:00:02.000\nhi\n\n") :=
  ⟨c4_unrecognized_timestamps.1 _ (by decide),
   c4_unrecognized_timestamps.2.1 _ (by decide),
   c4_unrecognized_timestamps.2.2 _ _ (by decide) (by decide) (by decide)
     (by decide)⟩

/-! ### Round-trip machinery: well-formed text and block cores -/

theorem mem_of_head? {α : Type} {l : List α} {a : α} (h : l.head? = some a) :
    a ∈ l := by
  cases l with
  | nil => simp at h
  | cons b t =>
    simp only [List.head?] at h
    injection h with h1
    exact h1 ▸ List.mem_cons_self _ _

theorem mem_of_getLast? {α : Type} {l : List α} {a : α}
    (h : l.getLast? = some a) : a ∈ l := by
  have hr : l.reverse.head? = some a := by rwa [List.head?_reverse]
  exact List.mem_reverse.mp (mem_of_head? hr)

theorem head?_append_left {α : Type} (a b : List α) (h : a ≠ []) :
    (a ++ b).head? = a.head? := by
  cases a with
  | nil => exact absurd rfl h
  | cons x t => rfl

theorem contains2nl_blank (t : List Char)
    (h : containsSub (lc "\n\n") t = true) : [] ∈ (splitNl t).drop 1 := by
  have hnl : ∀ r : List Char, splitNl ('\n' :: r) = [] :: splitNl r :=
    fun r => rfl
  induction t with
  | nil => simp [containsSub, lc, hasPre] at h
  | cons c cs ih =>
    simp only [containsSub, Bool.or_eq_true] at h
    rcases h with h | h
    · have hc : ('\n' : Char) = c ∧ hasPre ['\n'] cs = true := by
        simpa [lc, hasPre] using h
      cases cs with
      | nil => simp [hasPre] at hc
      | cons d cs2 =>
        have hd : ('\n' : Char) = d := by simpa [hasPre] using hc.2
        rw [← hc.1, ← hd, hnl, hnl]
        simp
    · have hmem := ih h
      by_cases hc : c = '\n'
      · subst hc
        rw [hnl]
        simp only [List.drop_succ_cons, List.drop_zero]
        exact List.mem_of_mem_drop hmem
      · rw [splitNl_cons c cs hc]
        cases hsp : splitNl cs with
        | nil => exact absurd hsp (splitNl_ne_nil cs)
        | cons a t2 =>
          rw [hsp] at hmem
          simpa [consTo] using hmem

theorem wfText_ne_nil (t : List Char) (h : wfText t) : t ≠ [] := by
  intro he
  subst he
  exact h.1 [] (by simp [splitNl]) rfl

theorem wfText_last (t : List Char) (h : wfText t) :
    ∀ c, t.getLast? = some c → pyWs c = false := by
  intro c hc
  have h3 := h.2.2
  rw [hc] at h3
  simpa [Option.all] using h3

theorem wfText_no2nl (t : List Char) (h : wfText t) :
    containsSub (lc "\n\n") t = false := by
  cases hc : containsSub (lc "\n\n") t
  · rfl
  · have hb := List.mem_of_mem_drop (contains2nl_blank t hc)
    exact absurd rfl (h.1 [] hb)

theorem vttTs_charset (s : List Char) (h : isVttTs s) :
    s ≠ [] ∧ ∀ c ∈ s, c ∈ lc "0123456789:.," := by
  obtain ⟨ms, rfl⟩ := h
  refine ⟨format_vtt_time_ne_nil ms, ?_⟩
  intro c hc
  have h1 := format_vtt_time_mem ms c hc
  have h2 : ∀ x ∈ lc "0123456789:.", x ∈ lc "0123456789:.," := by decide
  exact h2 c h1

theorem srtTs_charset (s : List Char) (h : isSrtTs s) :
    s ≠ [] ∧ ∀ c ∈ s, c ∈ lc "0123456789:.," := by
  obtain ⟨ms, rfl⟩ := h
  refine ⟨format_srt_time_ne_nil ms, ?_⟩
  intro c hc
  have h1 := format_srt_time_mem ms c hc
  have h2 : ∀ x ∈ lc "0123456789:,", x ∈ lc "0123456789:.," := by decide
  exact h2 c h1

theorem tsMerged_facts (s : List Char) (h : ∀ c ∈ s, c ∈ lc "0123456789:.,") :
    ' ' ∉ s ∧ '\n' ∉ s ∧ '\r' ∉ s ∧ (∀ c ∈ s, pyWs c = false) := by
  have key : ∀ x ∈ lc "0123456789:.,",
      x ≠ ' ' ∧ x ≠ '\n' ∧ x ≠ '\r' ∧ pyWs x = false := by decide
  exact ⟨fun hm => ((key _ (h _ hm)).1 rfl),
    fun hm => ((key _ (h _ hm)).2.1 rfl),
    fun hm => ((key _ (h _ hm)).2.2.1 rfl),
    fun c hc => (key c (h c hc)).2.2.2⟩

theorem tsLine_ne_nil (s e : List Char) : tsLine s e ≠ [] := by
  cases s <;> simp [tsLine]

theorem tsLine_decomp (s e : List Char) :
    tsLine s e = s ++ ([' ', '-', '-', '>', ' '] ++ e) := rfl

theorem tsLine_no_nl (s e : List Char) (hs : '\n' ∉ s) (he : '\n' ∉ e) :
    '\n' ∉ tsLine s e := by
  intro hm
  rw [tsLine_decomp] at hm
  rcases List.mem_append.mp hm with hm | hm
  · exact hs hm
  · rcases List.mem_append.mp hm with hm | hm
    · exact absurd hm (by decide)
    · exact he hm

theorem tsLine_eq_arrow (s e : List Char) :
    tsLine s e = s ++ lc " --> " ++ e := by
  simp only [List.append_assoc]
  rfl

theorem tsLine_eq_arrow3 (s e : List Char) :
    tsLine s e = (s ++ [' ']) ++ lc "-->" ++ ([' '] ++ e) := by
  simp only [List.append_assoc]
  rfl

theorem cueCore_splitNl (i : Nat) (c : Cue)
    (hs : '\n' ∉ c.start) (he : '\n' ∉ c.stop) :
    splitNl (cueCore i c) =
      natChars i :: tsLine c.start c.stop :: splitNl c.text := by
  have h1 : '\n' ∉ natChars i := fun hm =>
    absurd (natChars_mem i '\n' hm) (by decide)
  rw [cueCore, splitNl_append _ _ h1,
    splitNl_append _ _ (tsLine_no_nl _ _ hs he)]

theorem cueCore_head_digit (i : Nat) (c : Cue) :
    ∀ x, (cueCore i c).head? = some x → x ∈ lc "0123456789" := by
  intro x hx
  rw [cueCore, head?_append_left _ _ (natChars_ne_nil i)] at hx
  exact natChars_mem i x (mem_of_head? hx)

theorem cueCore_getLast (i : Nat) (c : Cue) (ht : c.text ≠ []) :
    (cueCore i c).getLast? = c.text.getLast? := by
  rw [cueCore,
    List.getLast?_append_of_ne_nil _
      (by simp : ('\n' :: (tsLine c.start c.stop ++ '\n' :: c.text) :
        List Char) ≠ []),
    show ('\n' :: (tsLine c.start c.stop ++ '\n' :: c.text) : List Char) =
      ('\n' :: tsLine c.start c.stop) ++ '\n' :: c.text from by simp,
    List.getLast?_append_of_ne_nil _
      (by simp : ('\n' :: c.text : List Char) ≠ []),
    show ('\n' :: c.text : List Char) = ['\n'] ++ c.text from rfl,
    List.getLast?_append_of_ne_nil _ ht]

theorem cueCore_strip (i : Nat) (c : Cue) (hT : wfText c.text) :
    pyStrip (cueCore i c) = cueCore i c := by
  apply pyStrip_eq_self
  · intro x hx
    have hd := cueCore_head_digit i c x hx
    have key : ∀ y ∈ lc "0123456789", pyWs y = false := by decide
    exact key x hd
  · intro x hx
    rw [cueCore_getLast i c (wfText_ne_nil _ hT)] at hx
    exact wfText_last _ hT x hx

theorem cueCore_no2nl (i : Nat) (c : Cue)
    (hs : '\n' ∉ c.start) (he : '\n' ∉ c.stop) (hT : wfText c.text) :
    containsSub (lc "\n\n") (cueCore i c) = false := by
  cases hc : containsSub (lc "\n\n") (cueCore i c)
  · rfl
  · exfalso
    have hb := contains2nl_blank _ hc
    rw [cueCore_splitNl i c hs he] at hb
    simp only [List.drop_succ_cons, List.drop_zero] at hb
    rcases List.mem_cons.mp hb with hb | hb
    · exact tsLine_ne_nil _ _ hb.symm
    · exact hT.1 [] hb rfl

theorem cueCore_getLast_ne_nl (i : Nat) (c : Cue) (hT : wfText c.text) :
    (cueCore i c).getLast? ≠ some '\n' := by
  intro h
  rw [cueCore_getLast i c (wfText_ne_nil _ hT)] at h
  exact absurd (wfText_last _ hT '\n' h) (by decide)

/-! ### Rejoining and resplitting whole files -/

theorem join2nl_cons2 (l : List Char) (ls : List (List Char)) (h : ls ≠ []) :
    join2nl (l :: ls) = l ++ '\n' :: '\n' :: join2nl ls := by
  cases ls with
  | nil => exact absurd rfl h
  | cons y ys => rfl

theorem join2nl_ne_nil_head (x : List Char) (xs : List (List Char))
    (hx : x ≠ []) : join2nl (x :: xs) ≠ [] := by
  cases xs with
  | nil => exact hx
  | cons y ys =>
    rw [join2nl_cons2 _ _ (by simp)]
    cases x with
    | nil => exact absurd rfl hx
    | cons a t => simp

theorem split2nl_join2nl (cs : List (List Char))
    (h : ∀ x ∈ cs, containsSub (lc "\n\n") x = false ∧ x.getLast? ≠ some '\n')
    (hne : cs ≠ []) : split2nl (join2nl cs) = cs := by
  induction cs with
  | nil => exact absurd rfl hne
  | cons x rest ih =>
    cases rest with
    | nil =>
      show split2nl (join2nl [x]) = [x]
      exact split2nl_of_no x (h x (List.mem_cons_self _ _)).1
    | cons y ys =>
      rw [join2nl_cons2 _ _ (by simp),
        split2nl_append _ _ (h x (List.mem_cons_self _ _)).1
          (h x (List.mem_cons_self _ _)).2,
        ih (fun z hz => h z (List.mem_cons_of_mem _ hz)) (by simp)]

theorem split2nl_join2nl_tail (cs : List (List Char))
    (h : ∀ x ∈ cs, containsSub (lc "\n\n") x = false ∧ x.getLast? ≠ some '\n')
    (hne : cs ≠ []) (tail : List Char) :
    split2nl (join2nl cs ++ '\n' :: '\n' :: tail) = cs ++ split2nl tail := by
  induction cs with
  | nil => exact absurd rfl hne
  | cons x rest ih =>
    cases rest with
    | nil =>
      show split2nl (x ++ '\n' :: '\n' :: tail) = x :: split2nl tail
      exact split2nl_append _ _ (h x (List.mem_cons_self _ _)).1
        (h x (List.mem_cons_self _ _)).2
    | cons y ys =>
      rw [join2nl_cons2 _ _ (by simp)]
      rw [show (x ++ '\n' :: '\n' :: join2nl (y :: ys)) ++ '\n' :: '\n' :: tail
          = x ++ '\n' :: '\n' :: (join2nl (y :: ys) ++ '\n' :: '\n' :: tail)
        from by simp]
      rw [split2nl_append _ _ (h x (List.mem_cons_self _ _)).1
          (h x (List.mem_cons_self _ _)).2,
        ih (fun z hz => h z (List.mem_cons_of_mem _ hz)) (by simp)]
      rfl

theorem cueCores_ne_nil (i : Nat) (data : List Cue) (h : data ≠ []) :
    cueCores i data ≠ [] := by
  cases data with
  | nil => exact absurd rfl h
  | cons c cs => simp [cueCores]

theorem mem_cueCores (i : Nat) (data : List Cue) (x : List Char)
    (hx : x ∈ cueCores i data) : ∃ j c, c ∈ data ∧ x = cueCore j c := by
  induction data generalizing i with
  | nil => simp [cueCores] at hx
  | cons c cs ih =>
    rcases List.mem_cons.mp hx with hx | hx
    · exact ⟨i, c, List.mem_cons_self _ _, hx⟩
    · obtain ⟨j, d, hd, he⟩ := ih (i + 1) hx
      exact ⟨j, d, List.mem_cons_of_mem _ hd, he⟩

theorem cueBlock_eq (i : Nat) (c : Cue) :
    FormatHandler.cueBlock i c = cueCore i c ++ ['\n', '\n'] := by
  have h1 : lc "\n" = ['\n'] := rfl
  have h2 : lc " --> " = [' ', '-', '-', '>', ' '] := rfl
  have h3 : lc "\n\n" = ['\n', '\n'] := rfl
  simp [FormatHandler.cueBlock, cueCore, tsLine, h1, h2, h3]

theorem cueBlocksFrom_eq (data : List Cue) :
    ∀ i, data ≠ [] → FormatHandler.cueBlocksFrom i data =
      join2nl (cueCores i data) ++ ['\n', '\n'] := by
  induction data with
  | nil => intro i h; exact absurd rfl h
  | cons c cs ih =>
    intro i _
    cases cs with
    | nil =>
      simp [FormatHandler.cueBlocksFrom, cueCores, join2nl, cueBlock_eq]
    | cons d ds =>
      show FormatHandler.cueBlock i c ++
          FormatHandler.cueBlocksFrom (i + 1) (d :: ds) = _
      rw [cueBlock_eq, ih (i + 1) (by simp),
        show cueCores i (c :: d :: ds) = cueCore i c :: cueCores (i + 1) (d :: ds)
          from rfl,
        join2nl_cons2 _ _ (cueCores_ne_nil _ _ (by simp))]
      simp

/-! ### Parsing one written block -/

theorem splitArrow_tsLine (s e : List Char) (hs : ' ' ∉ s) (he : ' ' ∉ e) :
    splitArrow (tsLine s e) = [s, e] := by
  rw [tsLine, splitArrow_append _ _ hs, splitArrow_of_no _ he]

theorem pyStrip_of_all_not_ws (s : List Char) (h : ∀ c ∈ s, pyWs c = false) :
    pyStrip s = s :=
  pyStrip_eq_self s (fun x hx => h x (mem_of_head? hx))
    (fun x hx => h x (mem_of_getLast? hx))

theorem vttBlockCues_core (i : Nat) (c : Cue)
    (hS : c.start ≠ [] ∧ ∀ x ∈ c.start, x ∈ lc "0123456789:.,")
    (hE : c.stop ≠ [] ∧ ∀ x ∈ c.stop, x ∈ lc "0123456789:.,")
    (hT : wfText c.text) :
    FormatHandler.vttBlockCues (cueCore i c) = [c] := by
  obtain ⟨hSsp, hSnl, hScr, hSws⟩ := tsMerged_facts _ hS.2
  obtain ⟨hEsp, hEnl, hEcr, hEws⟩ := tsMerged_facts _ hE.2
  have hstrip := cueCore_strip i c hT
  have hsplit := cueCore_splitNl i c hSnl hEnl
  have harrS : containsSub (lc " --> ") (natChars i) = false :=
    containsSub_false_of_not_mem _ _ ' ' (by decide)
      (fun hm => absurd (natChars_mem i ' ' hm) (by decide))
  have harrT : containsSub (lc " --> ") (tsLine c.start c.stop) = true := by
    rw [tsLine_eq_arrow]
    exact containsSub_exact _ _ _
  have hw : ¬(natChars i = lc "WEBVTT") := fun heq =>
    absurd (natChars_mem i 'W' (heq ▸ (by decide : 'W' ∈ lc "WEBVTT")))
      (by decide)
  rw [FormatHandler.vttBlockCues, hstrip, hsplit]
  simp only [if_neg hw, List.findIdx?_cons, harrS, harrT,
    Bool.false_eq_true, if_false, if_true, List.getD, List.getElem?_cons_zero,
    List.getElem?_cons_succ, List.get?_cons_zero, List.get?_cons_succ,
    Nat.zero_add, Option.getD_some,
    splitArrow_tsLine _ _ hSsp hEsp, List.drop_succ_cons, List.drop_zero,
    joinNl_splitNl, pyStrip_of_all_not_ws _ hSws, pyStrip_of_all_not_ws _ hEws]

theorem srtBlockCues_core (i : Nat) (c : Cue)
    (hS : c.start ≠ [] ∧ ∀ x ∈ c.start, x ∈ lc "0123456789:.,")
    (hE : c.stop ≠ [] ∧ ∀ x ∈ c.stop, x ∈ lc "0123456789:.,")
    (hT : wfText c.text) :
    FormatHandler.srtBlockCues (cueCore i c) = [c] := by
  obtain ⟨hSsp, hSnl, hScr, hSws⟩ := tsMerged_facts _ hS.2
  obtain ⟨hEsp, hEnl, hEcr, hEws⟩ := tsMerged_facts _ hE.2
  have hstrip := cueCore_strip i c hT
  have hsplit := cueCore_splitNl i c hSnl hEnl
  have harr1 : containsSub (lc "-->") (tsLine c.start c.stop) = true := by
    rw [tsLine_eq_arrow3]
    exact containsSub_exact _ _ _
  have hlen : 3 ≤ (natChars i :: tsLine c.start c.stop ::
      splitNl c.text).length := by
    have hpos := List.length_pos.mpr (splitNl_ne_nil c.text)
    simp only [List.length_cons]
    omega
  rw [FormatHandler.srtBlockCues, hstrip, hsplit]
  simp only [if_pos hlen, List.getD, List.getElem?_cons_zero,
    List.getElem?_cons_succ, List.get?_cons_zero, List.get?_cons_succ,
    Option.getD_some, harr1, if_true,
    splitArrow_tsLine _ _ hSsp hEsp, List.drop_succ_cons, List.drop_zero,
    joinNl_splitNl, pyStrip_of_all_not_ws _ hSws, pyStrip_of_all_not_ws _ hEws]

/-! ### Whole-file round trips for VTT and SRT -/

theorem cueCore_ne_nil (i : Nat) (c : Cue) : cueCore i c ≠ [] := by
  simp [cueCore, natChars_ne_nil i]

theorem cueCore_no_cr (i : Nat) (c : Cue)
    (hS : ∀ x ∈ c.start, x ∈ lc "0123456789:.,")
    (hE : ∀ x ∈ c.stop, x ∈ lc "0123456789:.,")
    (hT : wfText c.text) : '\r' ∉ cueCore i c := by
  intro hm
  rw [cueCore] at hm
  rcases List.mem_append.mp hm with hm | hm
  · exact absurd (natChars_mem i _ hm) (by decide)
  · rcases List.mem_cons.mp hm with hm | hm
    · exact absurd hm (by decide)
    · rcases List.mem_append.mp hm with hm | hm
      · rw [tsLine_decomp] at hm
        rcases List.mem_append.mp hm with hm | hm
        · exact (tsMerged_facts _ hS).2.2.1 hm
        · rcases List.mem_append.mp hm with hm | hm
          · exact absurd hm (by decide)
          · exact (tsMerged_facts _ hE).2.2.1 hm
      · rcases List.mem_cons.mp hm with hm | hm
        · exact absurd hm (by decide)
        · exact hT.2.1 hm

theorem no_cr_join2nl (cs : List (List Char)) (h : ∀ x ∈ cs, '\r' ∉ x) :
    '\r' ∉ join2nl cs := by
  induction cs with
  | nil => simp [join2nl]
  | cons x rest ih =>
    cases rest with
    | nil => exact h x (List.mem_cons_self _ _)
    | cons y ys =>
      rw [join2nl_cons2 _ _ (by simp)]
      intro hm
      rcases List.mem_append.mp hm with hm | hm
      · exact h x (List.mem_cons_self _ _) hm
      · rcases List.mem_cons.mp hm with hm | hm
        · exact absurd hm (by decide)
        · rcases List.mem_cons.mp hm with hm | hm
          · exact absurd hm (by decide)
          · exact ih (fun z hz => h z (List.mem_cons_of_mem _ hz)) hm

theorem cueCores_ok (i : Nat) (data : List Cue) (h : ∀ c ∈ data, wfCue c) :
    ∀ x ∈ cueCores i data,
      containsSub (lc "\n\n") x = false ∧ x.getLast? ≠ some '\n' := by
  intro x hx
  obtain ⟨j, c, hc, rfl⟩ := mem_cueCores i data x hx
  have hw := h c hc
  have hSnl := (tsMerged_facts _ hw.1.2).2.1
  have hEnl := (tsMerged_facts _ hw.2.1.2).2.1
  exact ⟨cueCore_no2nl j c hSnl hEnl hw.2.2, cueCore_getLast_ne_nl j c hw.2.2⟩

theorem cueCores_no_cr (i : Nat) (data : List Cue)
    (h : ∀ c ∈ data, wfCue c) : ∀ x ∈ cueCores i data, '\r' ∉ x := by
  intro x hx
  obtain ⟨j, c, hc, rfl⟩ := mem_cueCores i data x hx
  have hw := h c hc
  exact cueCore_no_cr j c hw.1.2 hw.2.1.2 hw.2.2

theorem cueCores_vtt_flat (data : List Cue) :
    ∀ i, (∀ c ∈ data, wfCue c) →
      ((cueCores i data).map FormatHandler.vttBlockCues).flatten = data := by
  induction data with
  | nil => intro i _; rfl
  | cons c cs ih =>
    intro i h
    rw [show cueCores i (c :: cs) = cueCore i c :: cueCores (i + 1) cs
      from rfl]
    rw [List.map_cons, List.flatten_cons]
    have hw := h c (List.mem_cons_self _ _)
    rw [vttBlockCues_core i c hw.1 hw.2.1 hw.2.2,
      ih (i + 1) (fun d hd => h d (List.mem_cons_of_mem _ hd))]
    rfl

theorem cueCores_srt_flat (data : List Cue) :
    ∀ i, (∀ c ∈ data, wfCue c) →
      ((cueCores i data).map FormatHandler.srtBlockCues).flatten = data := by
  induction data with
  | nil => intro i _; rfl
  | cons c cs ih =>
    intro i h
    rw [show cueCores i (c :: cs) = cueCore i c :: cueCores (i + 1) cs
      from rfl]
    rw [List.map_cons, List.flatten_cons]
    have hw := h c (List.mem_cons_self _ _)
    rw [srtBlockCues_core i c hw.1 hw.2.1 hw.2.2,
      ih (i + 1) (fun d hd => h d (List.mem_cons_of_mem _ hd))]
    rfl

theorem join2nl_head? (x : List Char) (xs : List (List Char)) (hx : x ≠ []) :
    (join2nl (x :: xs)).head? = x.head? := by
  cases xs with
  | nil => rfl
  | cons y ys =>
    rw [join2nl_cons2 _ _ (by simp)]
    exact head?_append_left _ _ hx

theorem join2nl_cueCores_getLast (data : List Cue) :
    ∀ i, (∀ c ∈ data, c.text ≠ []) → ∀ x,
      (join2nl (cueCores i data)).getLast? = some x →
      ∃ c ∈ data, c.text.getLast? = some x := by
  induction data with
  | nil => intro i _ x hx; simp [cueCores, join2nl] at hx
  | cons c cs ih =>
    intro i hne x hx
    cases cs with
    | nil =>
      rw [show cueCores i [c] = [cueCore i c] from rfl,
        show join2nl [cueCore i c] = cueCore i c from rfl,
        cueCore_getLast i c (hne c (List.mem_cons_self _ _))] at hx
      exact ⟨c, List.mem_cons_self _ _, hx⟩
    | cons d ds =>
      rw [show cueCores i (c :: d :: ds) =
          cueCore i c :: cueCores (i + 1) (d :: ds) from rfl,
        join2nl_cons2 _ _ (cueCores_ne_nil _ _ (by simp)),
        List.getLast?_append_of_ne_nil _ (by simp)] at hx
      have hJne : join2nl (cueCores (i + 1) (d :: ds)) ≠ [] := by
        rw [show cueCores (i + 1) (d :: ds) =
          cueCore (i + 1) d :: cueCores (i + 2) ds from rfl]
        exact join2nl_ne_nil_head _ _ (cueCore_ne_nil _ _)
      rw [show ('\n' :: '\n' :: join2nl (cueCores (i + 1) (d :: ds)) :
            List Char) = ['\n', '\n'] ++ join2nl (cueCores (i + 1) (d :: ds))
          from rfl,
        List.getLast?_append_of_ne_nil _ hJne] at hx
      obtain ⟨e, he, hex⟩ := ih (i + 1)
        (fun z hz => hne z (List.mem_cons_of_mem _ hz)) x hx
      exact ⟨e, List.mem_cons_of_mem _ he, hex⟩

theorem parse_vtt_roundtrip (data : List Cue) (h : ∀ c ∈ data, wfCue c) :
    FormatHandler.parse_vtt (FormatHandler.save_vtt_from_data data) = data := by
  cases data with
  | nil => decide
  | cons c0 cs =>
    have hD : (c0 :: cs : List Cue) ≠ [] := by simp
    rw [FormatHandler.parse_vtt, FormatHandler.save_vtt_from_data,
      cueBlocksFrom_eq _ 1 hD,
      show lc "WEBVTT\n\n" = lc "WEBVTT" ++ ['\n', '\n'] from rfl,
      show (lc "WEBVTT" ++ ['\n', '\n']) ++
          (join2nl (cueCores 1 (c0 :: cs)) ++ ['\n', '\n']) =
        lc "WEBVTT" ++ '\n' :: '\n' ::
          (join2nl (cueCores 1 (c0 :: cs)) ++ '\n' :: '\n' :: [])
        from by simp]
    have hcr : '\r' ∉ lc "WEBVTT" ++ '\n' :: '\n' ::
        (join2nl (cueCores 1 (c0 :: cs)) ++ '\n' :: '\n' :: ([] : List Char)) := by
      intro hm
      rcases List.mem_append.mp hm with hm | hm
      · exact absurd hm (by decide)
      · rcases List.mem_cons.mp hm with hm | hm
        · exact absurd hm (by decide)
        · rcases List.mem_cons.mp hm with hm | hm
          · exact absurd hm (by decide)
          · rcases List.mem_append.mp hm with hm | hm
            · exact no_cr_join2nl _ (cueCores_no_cr 1 _ h) hm
            · rcases List.mem_cons.mp hm with hm | hm
              · exact absurd hm (by decide)
              · rcases List.mem_cons.mp hm with hm | hm
                · exact absurd hm (by decide)
                · simp at hm
    rw [uninl_of_no_cr _ hcr,
      split2nl_append (lc "WEBVTT") _ (by decide) (by decide),
      split2nl_join2nl_tail _ (cueCores_ok 1 _ h) (cueCores_ne_nil _ _ hD) [],
      show split2nl [] = [[]] from rfl,
      List.map_cons, List.flatten_cons, List.map_append, List.flatten_append,
      cueCores_vtt_flat _ 1 h,
      show FormatHandler.vttBlockCues (lc "WEBVTT") = [] from by decide,
      show (([[]] : List (List Char)).map FormatHandler.vttBlockCues).flatten
        = [] from by decide]
    simp

theorem parse_srt_roundtrip (data : List Cue) (h : ∀ c ∈ data, wfCue c) :
    FormatHandler.parse_srt (FormatHandler.save_srt_from_data data) = data := by
  cases data with
  | nil => decide
  | cons c0 cs =>
    have hD : (c0 :: cs : List Cue) ≠ [] := by simp
    have key : ∀ y ∈ lc "0123456789", pyWs y = false := by decide
    rw [FormatHandler.parse_srt, FormatHandler.save_srt_from_data,
      cueBlocksFrom_eq _ 1 hD]
    have hcr : '\r' ∉ join2nl (cueCores 1 (c0 :: cs)) ++
        (['\n', '\n'] : List Char) := by
      intro hm
      rcases List.mem_append.mp hm with hm | hm
      · exact no_cr_join2nl _ (cueCores_no_cr 1 _ h) hm
      · rcases List.mem_cons.mp hm with hm | hm
        · exact absurd hm (by decide)
        · rcases List.mem_cons.mp hm with hm | hm
          · exact absurd hm (by decide)
          · simp at hm
    rw [uninl_of_no_cr _ hcr,
      pyStrip_append_ws _ _ (by decide)
        (by
          intro x hx
          rw [show cueCores 1 (c0 :: cs) = cueCore 1 c0 :: cueCores 2 cs
              from rfl,
            join2nl_head? _ _ (cueCore_ne_nil _ _)] at hx
          exact key x (cueCore_head_digit 1 c0 x hx))
        (by
          intro x hx
          obtain ⟨c, hc, hcl⟩ := join2nl_cueCores_getLast (c0 :: cs) 1
            (fun z hz => wfText_ne_nil _ (h z hz).2.2) x hx
          exact wfText_last _ (h c hc).2.2 x hcl),
      split2nl_join2nl _ (cueCores_ok 1 _ h) (cueCores_ne_nil _ _ hD),
      cueCores_srt_flat _ 1 h]

/-! ### CSV scanner bridges -/

theorem csvScan_nil_false (f : List Char) (row : List (List Char)) :
    FormatHandler.csvScan [] false f row =
      if f = [] && row.isEmpty then [] else [row ++ [f]] := rfl

theorem csvScan_qq (rest : List Char) (f : List Char) (row : List (List Char)) :
    FormatHandler.csvScan ('"' :: '"' :: rest) true f row =
      FormatHandler.csvScan rest true (f ++ ['"']) row := rfl

theorem csvScan_q_true (rest : List Char) (f : List Char)
    (row : List (List Char)) (h : rest.head? ≠ some '"') :
    FormatHandler.csvScan ('"' :: rest) true f row =
      FormatHandler.csvScan rest false f row := by
  rw [FormatHandler.csvScan.eq_def]
  split
  all_goals try (rename_i hq1 hq2; injection hq1 with e1 e2; subst e2)
  all_goals try subst e1
  all_goals simp_all

theorem csvScan_cons_true (c : Char) (rest : List Char) (f : List Char)
    (row : List (List Char)) (h : c ≠ '"') :
    FormatHandler.csvScan (c :: rest) true f row =
      FormatHandler.csvScan rest true (f ++ [c]) row := by
  rw [FormatHandler.csvScan.eq_def]
  split
  all_goals try (rename_i hq1 hq2; injection hq1 with e1 e2; subst e2)
  all_goals try subst e1
  all_goals simp_all

theorem csvScan_q_false (rest : List Char) (f : List Char)
    (row : List (List Char)) :
    FormatHandler.csvScan ('"' :: rest) false f row =
      if f = [] then FormatHandler.csvScan rest true f row
      else FormatHandler.csvScan rest false (f ++ ['"']) row := by
  rw [FormatHandler.csvScan.eq_def]
  split
  all_goals try (rename_i hq1 hq2; injection hq1 with e1 e2; subst e2)
  all_goals try subst e1
  all_goals simp_all

theorem csvScan_comma (rest : List Char) (f : List Char)
    (row : List (List Char)) :
    FormatHandler.csvScan (',' :: rest) false f row =
      FormatHandler.csvScan rest false [] (row ++ [f]) := by
  rw [FormatHandler.csvScan.eq_def]
  split
  all_goals try (rename_i hq1 hq2; injection hq1 with e1 e2; subst e2)
  all_goals try subst e1
  all_goals simp_all

theorem csvScan_nl (rest : List Char) (f : List Char)
    (row : List (List Char)) :
    FormatHandler.csvScan ('\n' :: rest) false f row =
      if f = [] && row.isEmpty then
        [] :: FormatHandler.csvScan rest false [] []
      else (row ++ [f]) :: FormatHandler.csvScan rest false [] [] := by
  rw [FormatHandler.csvScan.eq_def]
  split
  all_goals try (rename_i hq1 hq2; injection hq1 with e1 e2; subst e2)
  all_goals try subst e1
  all_goals simp_all

theorem csvScan_cons_false (c : Char) (rest : List Char) (f : List Char)
    (row : List (List Char)) (h1 : c ≠ '"') (h2 : c ≠ ',') (h3 : c ≠ '\n') :
    FormatHandler.csvScan (c :: rest) false f row =
      FormatHandler.csvScan rest false (f ++ [c]) row := by
  rw [FormatHandler.csvScan.eq_def]
  split
  all_goals try (rename_i hq1 hq2; injection hq1 with e1 e2; subst e2)
  all_goals try subst e1
  all_goals simp_all

/-! ### CSV field and row round trip -/

theorem csvScan_no_special (x : List Char)
    (hx : ∀ c ∈ x, c ≠ ',' ∧ c ≠ '"' ∧ c ≠ '\n') :
    ∀ (rest g : List Char) (row : List (List Char)),
      FormatHandler.csvScan (x ++ rest) false g row =
        FormatHandler.csvScan rest false (g ++ x) row := by
  induction x with
  | nil => intro rest g row; simp
  | cons c t ih =>
    intro rest g row
    have hc := hx c (List.mem_cons_self _ _)
    rw [List.cons_append, csvScan_cons_false _ _ _ _ hc.2.1 hc.1 hc.2.2,
      ih (fun z hz => hx z (List.mem_cons_of_mem _ hz)) rest (g ++ [c]) row]
    simp

theorem csvScan_escaped (fl : List Char) :
    ∀ (rest g : List Char) (row : List (List Char)),
      rest.head? ≠ some '"' →
      FormatHandler.csvScan
          (FormatHandler.csvEscape fl ++ '"' :: rest) true g row =
        FormatHandler.csvScan rest false (g ++ fl) row := by
  induction fl with
  | nil =>
    intro rest g row hr
    rw [show FormatHandler.csvEscape [] = [] from rfl, List.nil_append,
      csvScan_q_true _ _ _ hr]
    simp
  | cons c t ih =>
    intro rest g row hr
    by_cases hc : c = '"'
    · subst hc
      rw [show FormatHandler.csvEscape ('"' :: t) =
          '"' :: '"' :: FormatHandler.csvEscape t from rfl,
        List.cons_append, List.cons_append, csvScan_qq,
        ih rest (g ++ ['"']) row hr]
      simp
    · rw [csvEscape_cons _ _ hc, List.cons_append,
        csvScan_cons_true _ _ _ _ hc, ih rest (g ++ [c]) row hr]
      simp

theorem csvScan_field (fl : List Char) (rest : List Char)
    (hr : rest.head? = some ',' ∨ rest.head? = some '\n')
    (row : List (List Char)) :
    FormatHandler.csvScan (FormatHandler.csvField fl ++ rest) false [] row =
      FormatHandler.csvScan rest false fl row := by
  have hrq : rest.head? ≠ some '"' := by
    rcases hr with hr | hr <;> rw [hr] <;> simp
  by_cases hq : FormatHandler.csvNeedsQuote fl = true
  · rw [FormatHandler.csvField, if_pos hq,
      show (('"' :: FormatHandler.csvEscape fl ++ ['"']) ++ rest : List Char)
        = '"' :: (FormatHandler.csvEscape fl ++ '"' :: rest) from by simp,
      csvScan_q_false, if_pos rfl, csvScan_escaped fl rest [] row hrq]
    simp
  · have hfalse : FormatHandler.csvNeedsQuote fl = false := by
      cases hv : FormatHandler.csvNeedsQuote fl
      · rfl
      · exact absurd hv hq
    have hx : ∀ c ∈ fl, c ≠ ',' ∧ c ≠ '"' ∧ c ≠ '\n' := by
      intro c hc
      rw [FormatHandler.csvNeedsQuote, List.any_eq_false] at hfalse
      have h2 := hfalse c hc
      simp only [Bool.or_eq_true, decide_eq_true_eq, not_or] at h2
      exact ⟨h2.1.1.1, h2.1.1.2, h2.1.2⟩
    rw [FormatHandler.csvField, if_neg hq, csvScan_no_special fl hx rest [] row]
    simp

theorem csvScan_row3 (a b t : List Char) (rest : List Char) :
    FormatHandler.csvScan
        (FormatHandler.joinComma
          ([a, b, t].map FormatHandler.csvField) ++ '\n' :: rest) false [] [] =
      [a, b, t] :: FormatHandler.csvScan rest false [] [] := by
  rw [show FormatHandler.joinComma ([a, b, t].map FormatHandler.csvField)
      = FormatHandler.csvField a ++ ',' ::
        (FormatHandler.csvField b ++ ',' :: FormatHandler.csvField t)
    from rfl]
  rw [show ((FormatHandler.csvField a ++ ',' ::
        (FormatHandler.csvField b ++ ',' :: FormatHandler.csvField t)) ++
        '\n' :: rest : List Char)
      = FormatHandler.csvField a ++ ',' :: (FormatHandler.csvField b ++
        ',' :: (FormatHandler.csvField t ++ '\n' :: rest)) from by simp]
  rw [csvScan_field a (',' :: (FormatHandler.csvField b ++
      ',' :: (FormatHandler.csvField t ++ '\n' :: rest))) (Or.inl rfl) _,
    csvScan_comma,
    csvScan_field b (',' :: (FormatHandler.csvField t ++ '\n' :: rest))
      (Or.inl rfl) _,
    csvScan_comma,
    csvScan_field t ('\n' :: rest) (Or.inr rfl) _, csvScan_nl]
  simp

/-! ### CSV whole-file round trip -/

theorem mem_csvEscape (f : List Char) (x : Char)
    (hx : x ∈ FormatHandler.csvEscape f) : x ∈ f ∨ x = '"' := by
  induction f with
  | nil => simp [FormatHandler.csvEscape] at hx
  | cons c t ih =>
    by_cases hc : c = '"'
    · subst hc
      rw [show FormatHandler.csvEscape ('"' :: t) =
          '"' :: '"' :: FormatHandler.csvEscape t from rfl] at hx
      rcases List.mem_cons.mp hx with hx | hx
      · exact Or.inr hx
      · rcases List.mem_cons.mp hx with hx | hx
        · exact Or.inr hx
        · rcases ih hx with hx | hx
          · exact Or.inl (List.mem_cons_of_mem _ hx)
          · exact Or.inr hx
    · rw [csvEscape_cons _ _ hc] at hx
      rcases List.mem_cons.mp hx with hx | hx
      · exact Or.inl (hx ▸ List.mem_cons_self _ _)
      · rcases ih hx with hx | hx
        · exact Or.inl (List.mem_cons_of_mem _ hx)
        · exact Or.inr hx

theorem no_cr_csvField (f : List Char) (h : '\r' ∉ f) :
    '\r' ∉ FormatHandler.csvField f := by
  intro hm
  rw [FormatHandler.csvField] at hm
  by_cases hq : FormatHandler.csvNeedsQuote f = true
  · rw [if_pos hq] at hm
    rcases List.mem_cons.mp hm with hm | hm
    · exact absurd hm (by decide)
    · rcases List.mem_append.mp hm with hm | hm
      · rcases mem_csvEscape f _ hm with hm | hm
        · exact h hm
        · exact absurd hm (by decide)
      · rw [List.mem_singleton] at hm
        exact absurd hm (by decide)
  · rw [if_neg hq] at hm
    exact h hm

theorem no_cr_row (a b t : List Char) (ha : '\r' ∉ a) (hb : '\r' ∉ b)
    (ht : '\r' ∉ t) :
    '\r' ∉ FormatHandler.joinComma ([a, b, t].map FormatHandler.csvField) := by
  rw [show FormatHandler.joinComma ([a, b, t].map FormatHandler.csvField)
      = FormatHandler.csvField a ++ ',' ::
        (FormatHandler.csvField b ++ ',' :: FormatHandler.csvField t)
    from rfl]
  intro hm
  rcases List.mem_append.mp hm with hm | hm
  · exact no_cr_csvField a ha hm
  · rcases List.mem_cons.mp hm with hm | hm
    · exact absurd hm (by decide)
    · rcases List.mem_append.mp hm with hm | hm
      · exact no_cr_csvField b hb hm
      · rcases List.mem_cons.mp hm with hm | hm
        · exact absurd hm (by decide)
        · exact no_cr_csvField t ht hm

theorem uninl_crnl (b : List Char) : uninl ('\r' :: '\n' :: b) = '\n' :: uninl b := rfl

theorem uninl_row_append (J rest : List Char) (hJ : '\r' ∉ J) :
    uninl ((J ++ lc "\r\n") ++ rest) = (J ++ ['\n']) ++ uninl rest := by
  rw [show lc "\r\n" = ['\r', '\n'] from rfl,
    show (J ++ ['\r', '\n']) ++ rest = J ++ ('\r' :: '\n' :: rest) from by simp,
    uninl_append_no_cr _ _ hJ, uninl_crnl]
  simp

theorem uninl_csv_rows (data : List Cue)
    (h : ∀ c ∈ data, '\r' ∉ c.start ∧ '\r' ∉ c.stop ∧ '\r' ∉ c.text) :
    uninl ((data.map (fun c =>
        FormatHandler.csvRow [c.start, c.stop, c.text])).flatten) =
      (data.map (fun c => FormatHandler.joinComma
        ([c.start, c.stop, c.text].map FormatHandler.csvField) ++
          ['\n'])).flatten := by
  induction data with
  | nil => rfl
  | cons c cs ih =>
    rw [List.map_cons, List.flatten_cons, FormatHandler.csvRow]
    have hc := h c (List.mem_cons_self _ _)
    rw [uninl_row_append _ _ (no_cr_row _ _ _ hc.1 hc.2.1 hc.2.2),
      ih (fun z hz => h z (List.mem_cons_of_mem _ hz))]
    simp

theorem uninl_csv (data : List Cue)
    (h : ∀ c ∈ data, '\r' ∉ c.start ∧ '\r' ∉ c.stop ∧ '\r' ∉ c.text) :
    uninl (FormatHandler.save_csv_from_data data) =
      (FormatHandler.joinComma ([lc "Start", lc "End", lc "Text"].map
        FormatHandler.csvField) ++ ['\n']) ++
      (data.map (fun c => FormatHandler.joinComma
        ([c.start, c.stop, c.text].map FormatHandler.csvField) ++
          ['\n'])).flatten := by
  rw [FormatHandler.save_csv_from_data, FormatHandler.csvRow,
    uninl_row_append _ _ (by decide), uninl_csv_rows data h]

theorem csvRowCues_std (s e t : List Char) :
    FormatHandler.csvRowCues [lc "Start", lc "End", lc "Text"] [s, e, t] =
      [⟨s, e, t⟩] := by
  rw [FormatHandler.csvRowCues,
    if_neg (by simp : ¬([s, e, t] : List (List Char)) = [])]
  rw [FormatHandler.dictVal, FormatHandler.dictVal, FormatHandler.dictVal]
  rw [show List.findIdx? (fun h => h = lc "Start")
      [lc "Start", lc "End", lc "Text"] = some 0 from by decide,
    show List.findIdx? (fun h => h = lc "End")
      [lc "Start", lc "End", lc "Text"] = some 1 from by decide,
    show List.findIdx? (fun h => h = lc "Text")
      [lc "Start", lc "End", lc "Text"] = some 2 from by decide]
  simp

theorem csvScan_data_rows (data : List Cue) :
    FormatHandler.csvScan ((data.map (fun c => FormatHandler.joinComma
        ([c.start, c.stop, c.text].map FormatHandler.csvField) ++
          ['\n'])).flatten) false [] [] =
      data.map (fun c => [c.start, c.stop, c.text]) := by
  induction data with
  | nil => rfl
  | cons c cs ih =>
    rw [List.map_cons, List.flatten_cons,
      show (FormatHandler.joinComma ([c.start, c.stop, c.text].map
          FormatHandler.csvField) ++ ['\n']) ++
          ((cs.map (fun d => FormatHandler.joinComma
            ([d.start, d.stop, d.text].map FormatHandler.csvField) ++
              ['\n'])).flatten)
        = FormatHandler.joinComma ([c.start, c.stop, c.text].map
          FormatHandler.csvField) ++ '\n' ::
          ((cs.map (fun d => FormatHandler.joinComma
            ([d.start, d.stop, d.text].map FormatHandler.csvField) ++
              ['\n'])).flatten) from by simp,
      csvScan_row3, ih, List.map_cons]

theorem flatten_map_singleton (data : List Cue) :
    ((data.map (fun c => [c])).flatten) = data := by
  induction data with
  | nil => rfl
  | cons c cs ih => simp [ih]

theorem parse_csv_roundtrip (data : List Cue)
    (h : ∀ c ∈ data, '\r' ∉ c.start ∧ '\r' ∉ c.stop ∧ '\r' ∉ c.text) :
    FormatHandler.parse_csv (FormatHandler.save_csv_from_data data) = data := by
  rw [FormatHandler.parse_csv, uninl_csv data h,
    show (FormatHandler.joinComma ([lc "Start", lc "End", lc "Text"].map
        FormatHandler.csvField) ++ ['\n']) ++
        (data.map (fun c => FormatHandler.joinComma
          ([c.start, c.stop, c.text].map FormatHandler.csvField) ++
            ['\n'])).flatten
      = FormatHandler.joinComma ([lc "Start", lc "End", lc "Text"].map
        FormatHandler.csvField) ++ '\n' ::
        (data.map (fun c => FormatHandler.joinComma
          ([c.start, c.stop, c.text].map FormatHandler.csvField) ++
            ['\n'])).flatten from by simp,
    csvScan_row3, csvScan_data_rows]
  simp only [List.map_map]
  rw [show ((fun row => FormatHandler.csvRowCues
        [lc "Start", lc "End", lc "Text"] row) ∘
        (fun c : Cue => [c.start, c.stop, c.text]))
      = fun c : Cue => [c] from by
    funext c
    exact csvRowCues_std c.start c.stop c.text]
  exact flatten_map_singleton data

/-- C1: for every cue sequence whose text is well formed (no blank or
whitespace-only line, no carriage return, no trailing whitespace) and whose
start/end strings are the formatted timestamps of the format (for CSV: free
of carriage returns, as both timestamp notations are), serializing through
the cue-bearing formats and reparsing yields the same cue sequence:
`parse_vtt ∘ save_vtt_from_data`, `parse_srt ∘ save_srt_from_data` and
`parse_csv ∘ save_csv_from_data` are the identity, preserving start, end
and text of every cue in order. -/
theorem c1_round_trip (data : List Cue) (hw : ∀ c ∈ data, wfText c.text) :
    ((∀ c ∈ data, isVttTs c.start ∧ isVttTs c.stop) →
      FormatHandler.parse_vtt (FormatHandler.save_vtt_from_data data)
        = data) ∧
    ((∀ c ∈ data, isSrtTs c.start ∧ isSrtTs c.stop) →
      FormatHandler.parse_srt (FormatHandler.save_srt_from_data data)
        = data) ∧
    ((∀ c ∈ data, '\r' ∉ c.start ∧ '\r' ∉ c.stop) →
      FormatHandler.parse_csv (FormatHandler.save_csv_from_data data)
        = data) := by
  refine ⟨?_, ?_, ?_⟩
  · intro hts
    apply parse_vtt_roundtrip
    intro c hc
    exact ⟨vttTs_charset _ (hts c hc).1, vttTs_charset _ (hts c hc).2,
      hw c hc⟩
  · intro hts
    apply parse_srt_roundtrip
    intro c hc
    exact ⟨srtTs_charset _ (hts c hc).1, srtTs_charset _ (hts c hc).2,
      hw c hc⟩
  · intro hcr
    apply parse_csv_roundtrip
    intro c hc
    exact ⟨(hcr c hc).1, (hcr c hc).2, (hw c hc).2.1⟩

/-- C1 witness: a two-cue VTT sequence with a comma, an escaped quote and a
line break in the text round-trips through the VTT and CSV writers, and a
one-cue SRT sequence round-trips through the SRT writer. -/
theorem c1_witness :
    FormatHandler.parse_vtt (FormatHandler.save_vtt_from_data
        [⟨lc "00:00:01.000", lc "00:00:02.500",
            lc "Hello, \"world\"\nsecond line"⟩,
          ⟨lc "00:00:03.000", lc "00:00:04.000", lc "bye"⟩]) =
      [⟨lc "00:00:01.000", lc "00:00:02.500",
          lc "Hello, \"world\"\nsecond line"⟩,
        ⟨lc "00:00:03.000", lc "00:00:04.000", lc "bye"⟩] ∧
    FormatHandler.parse_srt (FormatHandler.save_srt_from_data
        [⟨lc "00:00:01,000", lc "00:00:02,500", lc "Hi there"⟩]) =
      [⟨lc "00:00:01,000", lc "00:00:02,500", lc "Hi there"⟩] ∧
    FormatHandler.parse_csv (FormatHandler.save_csv_from_data
        [⟨lc "00:00:01.000", lc "00:00:02.500",
            lc "Hello, \"world\"\nsecond line"⟩,
          ⟨lc "00:00:03.000", lc "00:00:04.000", lc "bye"⟩]) =
      [⟨lc "00:00:01.000", lc "00:00:02.500",
          lc "Hello, \"world\"\nsecond line"⟩,
        ⟨lc "00:00:03.000", lc "00:00:04.000", lc "bye"⟩] := by
  refine ⟨(c1_round_trip _ (by decide)).1 ?_,
    (c1_round_trip _ (by decide)).2.1 ?_,
    (c1_round_trip _ (by decide)).2.2 (by decide)⟩
  · intro c hc
    simp only [List.mem_cons, List.not_mem_nil, or_false] at hc
    rcases hc with rfl | rfl
    · exact ⟨⟨1000, by decide⟩, ⟨2500, by decide⟩⟩
    · exact ⟨⟨3000, by decide⟩, ⟨4000, by decide⟩⟩
  · intro c hc
    simp only [List.mem_cons, List.not_mem_nil, or_false] at hc
    rcases hc with rfl
    exact ⟨⟨1000, by decide⟩, ⟨2500, by decide⟩⟩
